import Mathlib

/-!
Verification of the PCB-management simulator (buddy allocator, priority
queue, process lifecycle manager).  The definitions below are a shallow
embedding of the Rust sources: buddy_system.rs, pcb.rs, queue.rs,
scheduler.rs and the ProcessManager in main.rs.  Linked lists are embedded
as Lean lists, the pid-keyed HashMap as an association list, and the Rust
usize counter used_count as Int (Rust usize subtraction would panic on
underflow in debug builds; the Int value tracks the mathematical count,
and on every reachable code path we prove the count stays non-negative).
-/

namespace OsPcb

/-- Process states, from pcb.rs (Ready / Running / Waiting). -/
inductive ProcessState
  | ready
  | running
  | waiting
deriving DecidableEq, Repr

/-- Process control block, from pcb.rs.  remaining_time is u32 in Rust;
we use Nat (the decrement site is proved to never underflow). -/
structure PCB where
  pid : Nat
  priority : Nat
  state : ProcessState
  remaining_time : Nat
  pool_index : Nat
deriving DecidableEq, Repr

/-- Buddy-system allocator state, from buddy_system.rs. -/
structure BuddySystem where
  pool : List (Option PCB)
  free_list : List (List Nat)
  max_order : Nat
  pool_size : Nat
  used_count : Int
deriving DecidableEq, Repr

/-- The while loop of BuddySystem::new: double pool_size (starting at 1)
until it reaches requested_size, counting max_order.  The fuel argument
bounds the number of doublings; requested_size doublings always suffice. -/
def newLoop (requested_size : Nat) : Nat → Nat → Nat → Nat × Nat
  | pool_size, max_order, 0 => (pool_size, max_order)
  | pool_size, max_order, fuel + 1 =>
    if pool_size < requested_size then
      newLoop requested_size (pool_size * 2) (max_order + 1) fuel
    else (pool_size, max_order)

/-- BuddySystem::new: pool of the least power of two that is at least
requested_size, all free lists empty except the top one holding block 0. -/
def BuddySystem.new (requested_size : Nat) : BuddySystem :=
  let pm := newLoop requested_size 1 0 requested_size
  { pool := List.replicate pm.1 none
    free_list := (List.replicate (pm.2 + 1) ([] : List Nat)).set pm.2 [0]
    max_order := pm.2
    pool_size := pm.1
    used_count := 0 }

/-- The first scan loop of BuddySystem::allocate: starting at order o,
find the first order at most max_order whose free list is non-empty. -/
def findFreeOrder (fl : List (List Nat)) (max_order : Nat) (o : Nat) : Option Nat :=
  if o ≤ max_order then
    if fl.getD o [] = [] then findFreeOrder fl max_order (o + 1) else some o
  else none
termination_by max_order + 1 - o

/-- The split loop of BuddySystem::allocate: while alloc_order exceeds 0,
decrement it and push the buddy index (index + 2^alloc_order) onto that
order's free list. -/
def splitLoop (fl : List (List Nat)) (index : Nat) : Nat → List (List Nat)
  | 0 => fl
  | o + 1 => splitLoop (fl.set o (fl.getD o [] ++ [index + 2 ^ o])) index o

/-- BuddySystem::allocate.  Rust mutates self and returns Option of usize;
we return the index together with the updated allocator (none leaves the
allocator unchanged in Rust, so no state is returned in that case).
Vec::pop removes the last element of the order-k free list; the impossible
pop of an empty list (Rust unwrap, unreachable because the scan found a
non-empty list) is embedded as returning none. -/
def BuddySystem.allocate (b : BuddySystem) : Option (Nat × BuddySystem) :=
  match findFreeOrder b.free_list b.max_order 0 with
  | none => none
  | some k =>
    match (b.free_list.getD k []).getLast? with
    | none => none
    | some index =>
      let fl := b.free_list.set k (b.free_list.getD k []).dropLast
      some (index,
        { b with
          free_list := splitLoop fl index k
          used_count := b.used_count + 1 })

/-- BuddySystem::store_pcb. -/
def BuddySystem.store_pcb (b : BuddySystem) (index : Nat) (pcb : PCB) : BuddySystem :=
  if index < b.pool_size then { b with pool := b.pool.set index (some pcb) } else b

/-- BuddySystem::merge_and_free, the upward merge loop.  At each step the
buddy of the current block is index XOR 2^order; if it is free at the same
order it is removed (Vec::remove at the first matching position, embedded
as List.erase) and the merged block continues upward, otherwise the current
block is pushed (guarded against duplicates) and the loop stops. -/
def merge_and_free (max_order : Nat) (fl : List (List Nat)) (index order : Nat) :
    List (List Nat) :=
  if _h : max_order ≤ order then
    if index ∈ fl.getD order [] then fl
    else fl.set order (fl.getD order [] ++ [index])
  else
    let buddy_index := index ^^^ 2 ^ order
    if buddy_index ∈ fl.getD order [] then
      merge_and_free max_order (fl.set order ((fl.getD order []).erase buddy_index))
        (min index buddy_index) (order + 1)
    else
      if index ∈ fl.getD order [] then fl
      else fl.set order (fl.getD order [] ++ [index])
termination_by max_order - order

/-- BuddySystem::deallocate: bounds check, clear the slot, decrement the
used count, then merge the freed order-0 block upward. -/
def BuddySystem.deallocate (b : BuddySystem) (index : Nat) : BuddySystem :=
  if b.pool_size ≤ index then b
  else
    { b with
      pool := b.pool.set index none
      used_count := b.used_count - 1
      free_list := merge_and_free b.max_order b.free_list index 0 }

/-- BuddySystem::get_free_count (pool_size - used_count). -/
def BuddySystem.get_free_count (b : BuddySystem) : Int :=
  (b.pool_size : Int) - b.used_count

/-! ### Buddy-index arithmetic

The buddy of a block (order o, start i) is i XOR 2^o.  For an aligned
block this is i + 2^o or i - 2^o depending on bit o of i. -/

/-- XOR with 2^o adds 2^o when bit o (and all lower bits) of i are zero. -/
theorem two_pow_xor_of_dvd {o i : Nat} (h : 2 ^ (o + 1) ∣ i) :
    i ^^^ 2 ^ o = i + 2 ^ o := by
  obtain ⟨a, rfl⟩ := h
  apply Nat.eq_of_testBit_eq
  intro j
  have h1 : (0 : Nat) < 2 ^ o := Nat.two_pow_pos o
  have hb : 2 ^ o < 2 ^ (o + 1) := by
    rw [pow_succ]; omega
  rw [Nat.testBit_xor, Nat.testBit_mul_pow_two, Nat.testBit_mul_pow_two_add a hb j]
  by_cases hj : j < o + 1
  · have hge : ¬ (j ≥ o + 1) := by omega
    simp [hj, hge]
  · have hge : j ≥ o + 1 := by omega
    have h2 : (2 ^ o).testBit j = false := Nat.testBit_two_pow_of_ne (by omega)
    simp [hj, hge, h2]

/-- Inverse form of the previous lemma: XOR with 2^o removes an added 2^o. -/
theorem add_two_pow_xor {o m : Nat} (h : 2 ^ (o + 1) ∣ m) :
    (m + 2 ^ o) ^^^ 2 ^ o = m := by
  rw [← two_pow_xor_of_dvd h, Nat.xor_assoc, Nat.xor_self, Nat.xor_zero]

/-- Every aligned block and its buddy form a pair (m, m + 2^o) whose lower
half m is aligned at the next order. -/
theorem buddy_spec {o i : Nat} (h : 2 ^ o ∣ i) :
    ∃ m, 2 ^ (o + 1) ∣ m ∧
      ((i = m ∧ i ^^^ 2 ^ o = m + 2 ^ o) ∨ (i = m + 2 ^ o ∧ i ^^^ 2 ^ o = m)) := by
  obtain ⟨q, rfl⟩ := h
  rcases Nat.even_or_odd q with hq | hq
  · obtain ⟨r, hr⟩ := hq
    have hm : 2 ^ o * q = 2 ^ (o + 1) * r := by subst hr; ring
    exact ⟨2 ^ o * q, ⟨r, hm⟩, .inl ⟨rfl, two_pow_xor_of_dvd ⟨r, hm⟩⟩⟩
  · obtain ⟨r, hr⟩ := hq
    have hm : 2 ^ o * q = 2 ^ (o + 1) * r + 2 ^ o := by subst hr; ring
    refine ⟨2 ^ (o + 1) * r, ⟨r, rfl⟩, .inr ⟨hm, ?_⟩⟩
    rw [hm]; exact add_two_pow_xor ⟨r, rfl⟩

/-! ### Coverage counting

freeCover counts, with multiplicity, how many free blocks of the free
lists contain a given slot.  The allocator invariant states that every
slot is covered exactly once, either by a free block or by the process
that occupies it. -/

/-- Indicator: 1 when slot s lies in the block of order o starting at i. -/
def candInd (i o s : Nat) : Nat := if i ≤ s ∧ s < i + 2 ^ o then 1 else 0

/-- Number of blocks of one order-o free list that contain slot s. -/
def coverList (o : Nat) (l : List Nat) (s : Nat) : Nat :=
  (l.map (fun i => candInd i o s)).sum

/-- Number of free blocks containing slot s, over all orders (the first
list has order k). -/
def freeCover : Nat → List (List Nat) → Nat → Nat
  | _, [], _ => 0
  | o, l :: rest, s => coverList o l s + freeCover (o + 1) rest s

/-- Total number of slots covered by the free lists, with multiplicity:
the sum over orders of (list length) * 2^order. -/
def freeTotal : Nat → List (List Nat) → Nat
  | _, [] => 0
  | o, l :: rest => l.length * 2 ^ o + freeTotal (o + 1) rest

theorem candInd_self (i o : Nat) : candInd i o i = 1 := by
  have := Nat.two_pow_pos o
  simp only [candInd]
  rw [if_pos (by omega)]

theorem candInd_zero_ne {i s : Nat} (h : s ≠ i) : candInd i 0 s = 0 := by
  simp only [candInd, pow_zero]
  rw [if_neg (by omega)]

/-- A block of order o+1 covers a slot exactly when one of its two
order-o halves does. -/
theorem candInd_split (m o s : Nat) :
    candInd m (o + 1) s = candInd m o s + candInd (m + 2 ^ o) o s := by
  have h2 : (2 : Nat) ^ (o + 1) = 2 ^ o + 2 ^ o := by rw [pow_succ]; ring
  simp only [candInd, h2]
  split_ifs <;> omega

theorem coverList_nil (o s : Nat) : coverList o [] s = 0 := rfl

theorem coverList_cons (o a s : Nat) (l : List Nat) :
    coverList o (a :: l) s = candInd a o s + coverList o l s := by
  simp [coverList]

theorem coverList_append (o s : Nat) (l₁ l₂ : List Nat) :
    coverList o (l₁ ++ l₂) s = coverList o l₁ s + coverList o l₂ s := by
  simp [coverList]

theorem coverList_erase {a : Nat} {l : List Nat} (h : a ∈ l) (o s : Nat) :
    coverList o (l.erase a) s + candInd a o s = coverList o l s := by
  have hp := (List.perm_cons_erase h).map (fun i => candInd i o s)
  have hs := hp.sum_eq
  simp only [coverList, hs, List.map_cons, List.sum_cons]
  omega

theorem candInd_le_coverList {i : Nat} {l : List Nat} (h : i ∈ l) (o s : Nat) :
    candInd i o s ≤ coverList o l s :=
  List.single_le_sum (by intro x _; exact Nat.zero_le x) _
    (List.mem_map_of_mem _ h)

theorem getD_set_self {α : Type} {fl : List α} {o : Nat} (h : o < fl.length)
    (x d : α) : (fl.set o x).getD o d = x := by
  simp [List.getD_eq_getElem?_getD, List.getElem?_set_self h]

theorem getD_set_ne {α : Type} {fl : List α} {o j : Nat} (h : o ≠ j)
    (x d : α) : (fl.set o x).getD j d = fl.getD j d := by
  simp [List.getD_eq_getElem?_getD, List.getElem?_set_ne h]

/-- Replacing the order-o list changes the cover count by the difference
of the two lists' contributions. -/
theorem freeCover_set {fl : List (List Nat)} {o : Nat} (ho : o < fl.length)
    (l' : List Nat) (k s : Nat) :
    freeCover k (fl.set o l') s + coverList (k + o) (fl.getD o []) s
      = freeCover k fl s + coverList (k + o) l' s := by
  induction fl generalizing o k with
  | nil => simp at ho
  | cons x rest ih =>
    cases o with
    | zero =>
      simp only [List.set, freeCover, List.getD_cons_zero, Nat.add_zero]
      omega
    | succ o' =>
      have ho' : o' < rest.length := by simpa using ho
      have := ih ho' (k + 1)
      simp only [List.set, freeCover, List.getD_cons_succ]
      have harith : k + (o' + 1) = (k + 1) + o' := by omega
      rw [harith]
      omega

theorem coverList_le_freeCover {fl : List (List Nat)} {o : Nat}
    (ho : o < fl.length) (k s : Nat) :
    coverList (k + o) (fl.getD o []) s ≤ freeCover k fl s := by
  induction fl generalizing o k with
  | nil => simp at ho
  | cons x rest ih =>
    cases o with
    | zero => simp only [List.getD_cons_zero, freeCover, Nat.add_zero]; omega
    | succ o' =>
      have ho' : o' < rest.length := by simpa using ho
      have := ih ho' (k + 1)
      simp only [List.getD_cons_succ, freeCover]
      have harith : k + (o' + 1) = (k + 1) + o' := by omega
      rw [harith]
      omega

/-- Two distinct orders contribute independently to the cover count. -/
theorem coverList_pair_le {fl : List (List Nat)} {o o' : Nat}
    (ho : o < fl.length) (ho' : o' < fl.length) (hne : o ≠ o') (k s : Nat) :
    coverList (k + o) (fl.getD o []) s + coverList (k + o') (fl.getD o' []) s
      ≤ freeCover k fl s := by
  induction fl generalizing o o' k with
  | nil => simp at ho
  | cons x rest ih =>
    cases o with
    | zero =>
      cases o' with
      | zero => omega
      | succ j =>
        have hj : j < rest.length := by simpa using ho'
        have h1 := coverList_le_freeCover hj (k + 1) s
        simp only [List.getD_cons_zero, List.getD_cons_succ, freeCover, Nat.add_zero]
        have harith : k + (j + 1) = (k + 1) + j := by omega
        rw [harith]
        omega
    | succ j =>
      cases o' with
      | zero =>
        have hj : j < rest.length := by simpa using ho
        have h1 := coverList_le_freeCover hj (k + 1) s
        simp only [List.getD_cons_zero, List.getD_cons_succ, freeCover, Nat.add_zero]
        have harith : k + (j + 1) = (k + 1) + j := by omega
        rw [harith]
        omega
      | succ j' =>
        have hj : j < rest.length := by simpa using ho
        have hj' : j' < rest.length := by simpa using ho'
        have := ih hj hj' (by omega) (k + 1)
        simp only [List.getD_cons_succ, freeCover]
        have h1 : k + (j + 1) = (k + 1) + j := by omega
        have h2 : k + (j' + 1) = (k + 1) + j' := by omega
        rw [h1, h2]
        omega

/-! ### Specification of the scan loop of allocate -/

theorem findFreeOrder_none_aux (fl : List (List Nat)) (mo : Nat) :
    ∀ d o, mo + 1 - o ≤ d → findFreeOrder fl mo o = none →
      ∀ j, o ≤ j → j ≤ mo → fl.getD j [] = [] := by
  intro d
  induction d with
  | zero => intro o hd _ j h1 h2; omega
  | succ d ih =>
    intro o hd h j h1 h2
    rw [findFreeOrder.eq_def] at h
    by_cases ho : o ≤ mo
    · rw [if_pos ho] at h
      by_cases he : fl.getD o [] = []
      · rw [if_pos he] at h
        by_cases hj : j = o
        · subst hj; exact he
        · exact ih (o + 1) (by omega) h j (by omega) h2
      · rw [if_neg he] at h; exact absurd h (by simp)
    · omega

theorem findFreeOrder_some_aux (fl : List (List Nat)) (mo : Nat) :
    ∀ d o k, mo + 1 - o ≤ d → findFreeOrder fl mo o = some k →
      o ≤ k ∧ k ≤ mo ∧ fl.getD k [] ≠ [] ∧
        ∀ j, o ≤ j → j < k → fl.getD j [] = [] := by
  intro d
  induction d with
  | zero =>
    intro o k hd h
    rw [findFreeOrder.eq_def] at h
    rw [if_neg (by omega)] at h
    exact absurd h (by simp)
  | succ d ih =>
    intro o k hd h
    rw [findFreeOrder.eq_def] at h
    by_cases ho : o ≤ mo
    · rw [if_pos ho] at h
      by_cases he : fl.getD o [] = []
      · rw [if_pos he] at h
        obtain ⟨h1, h2, h3, h4⟩ := ih (o + 1) k (by omega) h
        refine ⟨by omega, h2, h3, ?_⟩
        intro j hj1 hj2
        by_cases hj : j = o
        · subst hj; exact he
        · exact h4 j (by omega) hj2
      · rw [if_neg he] at h
        simp only [Option.some.injEq] at h
        subst h
        exact ⟨le_refl o, ho, he, fun j h1 h2 => by omega⟩
    · rw [if_neg ho] at h; exact absurd h (by simp)

theorem findFreeOrder_intro_aux (fl : List (List Nat)) (mo : Nat) :
    ∀ d o k, mo + 1 - o ≤ d → o ≤ k → k ≤ mo → fl.getD k [] ≠ [] →
      (∀ j, o ≤ j → j < k → fl.getD j [] = []) →
      findFreeOrder fl mo o = some k := by
  intro d
  induction d with
  | zero => intro o k hd h1 h2 _ _; omega
  | succ d ih =>
    intro o k hd h1 h2 h3 h4
    rw [findFreeOrder.eq_def, if_pos (by omega)]
    by_cases hk : o = k
    · subst hk; rw [if_neg h3]
    · rw [if_pos (h4 o (le_refl o) (by omega))]
      exact ih (o + 1) k (by omega) (by omega) h2 h3
        (fun j hj1 hj2 => h4 j (by omega) hj2)

/-! ### Specification of the split loop of allocate -/

theorem splitLoop_length (i : Nat) :
    ∀ k (fl : List (List Nat)), (splitLoop fl i k).length = fl.length := by
  intro k
  induction k with
  | zero => intro fl; rfl
  | succ k ih => intro fl; rw [splitLoop, ih, List.length_set]

theorem splitLoop_getD_ge (i : Nat) :
    ∀ k (fl : List (List Nat)) o, k ≤ o →
      (splitLoop fl i k).getD o [] = fl.getD o [] := by
  intro k
  induction k with
  | zero => intro fl o _; rfl
  | succ k ih =>
    intro fl o h
    rw [splitLoop, ih _ o (by omega), getD_set_ne (by omega)]

theorem splitLoop_getD_lt (i : Nat) :
    ∀ k (fl : List (List Nat)) o, o < k → k ≤ fl.length →
      (splitLoop fl i k).getD o [] = fl.getD o [] ++ [i + 2 ^ o] := by
  intro k
  induction k with
  | zero => intro fl o h _; omega
  | succ k ih =>
    intro fl o ho hk
    rw [splitLoop]
    by_cases h : o < k
    · rw [ih _ o h (by rw [List.length_set]; omega), getD_set_ne (by omega)]
    · have hok : o = k := by omega
      subst hok
      rw [splitLoop_getD_ge i o _ o (le_refl o), getD_set_self (by omega)]

/-- Coverage effect of the split loop: it adds exactly the slots of the
half-open interval (i, i + 2^k) (the returned block i keeps only the
order-0 slot i uncovered among the original order-k block). -/
theorem splitLoop_cover (i : Nat) :
    ∀ k (fl : List (List Nat)), k ≤ fl.length → ∀ s,
      freeCover 0 (splitLoop fl i k) s
        = freeCover 0 fl s + (if i + 1 ≤ s ∧ s < i + 2 ^ k then 1 else 0) := by
  intro k
  induction k with
  | zero =>
    intro fl _ s
    have : ¬ (i + 1 ≤ s ∧ s < i + 2 ^ 0) := by rw [pow_zero]; omega
    rw [if_neg this]; rfl
  | succ k ih =>
    intro fl hk s
    rw [splitLoop, ih _ (by rw [List.length_set]; omega) s]
    have hkfl : k < fl.length := by omega
    have hset := freeCover_set hkfl (fl.getD k [] ++ [i + 2 ^ k]) 0 s
    rw [coverList_append] at hset
    have hp : (2 : Nat) ^ (k + 1) = 2 ^ k + 2 ^ k := by rw [pow_succ]; ring
    have h1 : (0 : Nat) < 2 ^ k := Nat.two_pow_pos k
    simp only [Nat.zero_add, coverList_cons, coverList_nil, candInd] at hset ⊢
    rw [hp]
    split_ifs at hset ⊢ <;> omega

/-! ### The allocator invariant

AllocInv relates an allocator state to an abstract occupancy count:
count s is the number of live owners of slot s (0 or 1 in any reachable
state).  Every slot below pool_size is covered exactly once, either by a
free block or by its occupant; free blocks are aligned, in range, and no
two buddies are simultaneously free at the same order. -/

structure AllocInv (b : BuddySystem) (count : Nat → Nat) : Prop where
  hlen : b.free_list.length = b.max_order + 1
  hsize : b.pool_size = 2 ^ b.max_order
  hrange : ∀ o, o ≤ b.max_order → ∀ i ∈ b.free_list.getD o [],
    2 ^ o ∣ i ∧ i + 2 ^ o ≤ b.pool_size
  hcover : ∀ s, s < b.pool_size → freeCover 0 b.free_list s + count s = 1
  hbuddy : ∀ o, o < b.max_order → ∀ i ∈ b.free_list.getD o [],
    i ^^^ 2 ^ o ∉ b.free_list.getD o []

/-- Two blocks at distinct orders can not cover a common slot. -/
theorem cover_two_orders {b : BuddySystem} {count : Nat → Nat}
    (hI : AllocInv b count) {o o' s i i' : Nat}
    (ho : o ≤ b.max_order) (ho' : o' ≤ b.max_order) (hne : o ≠ o')
    (hm : i ∈ b.free_list.getD o []) (hm' : i' ∈ b.free_list.getD o' [])
    (hc : candInd i o s = 1) (hc' : candInd i' o' s = 1)
    (hs : s < b.pool_size) : False := by
  have h1 := candInd_le_coverList hm o s
  have h2 := candInd_le_coverList hm' o' s
  have ho1 : o < b.free_list.length := by rw [hI.hlen]; omega
  have ho2 : o' < b.free_list.length := by rw [hI.hlen]; omega
  have h3 := coverList_pair_le ho1 ho2 hne 0 s
  have h4 := hI.hcover s hs
  simp only [Nat.zero_add] at h3
  omega

theorem dropLast_append_getLast? {α : Type} {l : List α} {a : α}
    (h : l.getLast? = some a) : l.dropLast ++ [a] = l := by
  induction l using List.reverseRecOn with
  | nil => simp at h
  | append_singleton ys y _ =>
    rw [List.getLast?_concat] at h
    cases h
    rw [List.dropLast_concat]

theorem xor_cancel_eq {a b c : Nat} (h : a ^^^ c = b) : a = b ^^^ c := by
  rw [← h, Nat.xor_assoc, Nat.xor_self, Nat.xor_zero]

/-- Full description of a successful allocate: the first non-empty order
is k, the popped index is the last of its list, the split pushes one buddy
i + 2^o at every order o below k, and the cover count moves by exactly the
slot i. -/
theorem allocate_some_desc {b : BuddySystem} {i : Nat} {b' : BuddySystem}
    (hlen : b.free_list.length = b.max_order + 1)
    (h : b.allocate = some (i, b')) :
    ∃ k l, k ≤ b.max_order ∧ (∀ j, j < k → b.free_list.getD j [] = []) ∧
      b.free_list.getD k [] = l ++ [i] ∧
      b'.max_order = b.max_order ∧ b'.pool_size = b.pool_size ∧
      b'.pool = b.pool ∧ b'.used_count = b.used_count + 1 ∧
      b'.free_list.length = b.free_list.length ∧
      (∀ o, o < k → b'.free_list.getD o [] = b.free_list.getD o [] ++ [i + 2 ^ o]) ∧
      b'.free_list.getD k [] = l ∧
      (∀ o, k < o → b'.free_list.getD o [] = b.free_list.getD o []) ∧
      (∀ s, freeCover 0 b'.free_list s + (if s = i then 1 else 0)
        = freeCover 0 b.free_list s) := by
  unfold BuddySystem.allocate at h
  split at h
  · exact absurd h (by simp)
  next k hf =>
    split at h
    · exact absurd h (by simp)
    next idx hg =>
      simp only [Option.some.injEq, Prod.mk.injEq] at h
      obtain ⟨hi, hb'⟩ := h
      have hii : i = idx := hi.symm
      subst hii
      obtain ⟨-, hk, hne, hbelow⟩ :=
        findFreeOrder_some_aux b.free_list b.max_order (b.max_order + 1) 0 k
          (by omega) hf
      have hkl : k < b.free_list.length := by omega
      have hdl := dropLast_append_getLast? hg
      refine ⟨k, (b.free_list.getD k []).dropLast, hk,
        fun j hj => hbelow j (by omega) hj, hdl.symm, ?_, ?_, ?_, ?_, ?_, ?_, ?_, ?_, ?_⟩
      · rw [← hb']
      · rw [← hb']
      · rw [← hb']
      · rw [← hb']
      · rw [← hb']
        simp only
        rw [splitLoop_length, List.length_set]
      · intro o ho
        rw [← hb']
        simp only
        rw [splitLoop_getD_lt i k _ o ho (by rw [List.length_set]; omega),
          getD_set_ne (by omega)]
      · rw [← hb']
        simp only
        rw [splitLoop_getD_ge i k _ k (le_refl k), getD_set_self hkl]
      · intro o ho
        rw [← hb']
        simp only
        rw [splitLoop_getD_ge i k _ o (by omega), getD_set_ne (by omega)]
      · intro s
        rw [← hb']
        simp only
        have h1 := freeCover_set hkl (b.free_list.getD k []).dropLast 0 s
        have hGL : coverList k (b.free_list.getD k []) s
            = coverList k (b.free_list.getD k []).dropLast s + candInd i k s := by
          conv_lhs => rw [← hdl]
          rw [coverList_append, coverList_cons, coverList_nil]
          omega
        simp only [Nat.zero_add] at h1
        rw [hGL] at h1
        have h2 := splitLoop_cover i k (b.free_list.set k (b.free_list.getD k []).dropLast)
          (by rw [List.length_set]; omega) s
        have hpos : (0 : Nat) < 2 ^ k := Nat.two_pow_pos k
        have h3 : candInd i k s
            = (if s = i then 1 else 0) + (if i + 1 ≤ s ∧ s < i + 2 ^ k then 1 else 0) := by
          simp only [candInd]
          split_ifs <;> omega
        omega

/-- allocate preserves the allocator invariant, transferring exactly one
slot (the returned index, previously covered by a free block) to the
occupancy count. -/
theorem allocate_preserve {b b' : BuddySystem} {i : Nat} {count : Nat → Nat}
    (hI : AllocInv b count) (h : b.allocate = some (i, b')) :
    AllocInv b' (fun s => count s + (if s = i then 1 else 0))
      ∧ i < b.pool_size ∧ count i = 0
      ∧ b'.max_order = b.max_order ∧ b'.pool_size = b.pool_size
      ∧ b'.pool = b.pool ∧ b'.used_count = b.used_count + 1 := by
  obtain ⟨k, l, hk, hbelow, hlk, hmo, hps, hpool, huc, hlen', hlow, hatk, hhigh, hcov⟩ :=
    allocate_some_desc hI.hlen h
  have hmem : i ∈ b.free_list.getD k [] := by rw [hlk]; exact List.mem_append_right l (by simp)
  obtain ⟨hdvd, hbound⟩ := hI.hrange k hk i hmem
  have hpos : (0 : Nat) < 2 ^ k := Nat.two_pow_pos k
  have hips : i < b.pool_size := by omega
  have hcnt : count i = 0 := by
    have h1 := candInd_le_coverList hmem k i
    rw [candInd_self] at h1
    have hkfl : k < b.free_list.length := by rw [hI.hlen]; omega
    have h2 := coverList_le_freeCover hkfl 0 i
    simp only [Nat.zero_add] at h2
    have h3 := hI.hcover i hips
    omega
  have hmemo : ∀ o, o < k → i ∉ b.free_list.getD o [] := by
    intro o ho hmem'
    exact cover_two_orders hI (by omega) hk (by omega) hmem' hmem
      (candInd_self i o) (candInd_self i k) hips
  refine ⟨⟨?_, ?_, ?_, ?_, ?_⟩, hips, hcnt, hmo, hps, hpool, huc⟩
  · rw [hlen', hI.hlen, hmo]
  · rw [hps, hmo, hI.hsize]
  · intro o ho x hx
    rw [hmo] at ho
    rw [hps]
    rcases Nat.lt_trichotomy o k with h1 | h1 | h1
    · rw [hlow o h1] at hx
      rcases List.mem_append.mp hx with h2 | h2
      · exact hI.hrange o ho x h2
      · simp only [List.mem_singleton] at h2
        subst h2
        constructor
        · exact Dvd.dvd.add ((pow_dvd_pow 2 (by omega)).trans hdvd) dvd_rfl
        · have : (2 : Nat) ^ o + 2 ^ o ≤ 2 ^ k := by
            have h3 : (2 : Nat) ^ (o + 1) ≤ 2 ^ k := Nat.pow_le_pow_right (by omega) (by omega)
            rw [pow_succ] at h3
            omega
          omega
    · subst h1
      rw [hatk] at hx
      exact hI.hrange o ho x (by rw [hlk]; exact List.mem_append_left _ hx)
    · rw [hhigh o h1] at hx
      exact hI.hrange o ho x hx
  · intro s hs
    rw [hps] at hs
    have h1 := hcov s
    have h2 := hI.hcover s hs
    omega
  · intro o ho x hx hxb
    rw [hmo] at ho
    rcases Nat.lt_trichotomy o k with h1 | h1 | h1
    · rw [hlow o h1] at hx hxb
      have hdvd1 : 2 ^ (o + 1) ∣ i := (pow_dvd_pow 2 (by omega)).trans hdvd
      rcases List.mem_append.mp hx with h2 | h2
      · rcases List.mem_append.mp hxb with h3 | h3
        · exact hI.hbuddy o ho x h2 h3
        · simp only [List.mem_singleton] at h3
          have hx_eq : x = i := by
            have := xor_cancel_eq h3
            rw [add_two_pow_xor hdvd1] at this
            exact this
          subst hx_eq
          exact hmemo o h1 h2
      · simp only [List.mem_singleton] at h2
        subst h2
        rw [add_two_pow_xor hdvd1] at hxb
        rcases List.mem_append.mp hxb with h3 | h3
        · exact hmemo o h1 h3
        · simp only [List.mem_singleton] at h3
          omega
    · subst h1
      rw [hatk] at hx hxb
      have hx' : x ∈ b.free_list.getD o [] := by
        rw [hlk]; exact List.mem_append_left _ hx
      have := hI.hbuddy o ho x hx'
      exact this (by rw [hlk]; exact List.mem_append_left _ hxb)
    · rw [hhigh o h1] at hx hxb
      exact hI.hbuddy o ho x hx hxb

theorem xor_two_pow_ne (i o : Nat) : i ^^^ 2 ^ o ≠ i := by
  intro h
  have h2 := congrArg (fun n => Nat.testBit n o) h
  simp [Nat.testBit_xor, Nat.testBit_two_pow] at h2

/-- The block being merged is never already present in the free list at
its own order: the slots it covers are covered by nothing else. -/
theorem cand_not_mem {mo : Nat} {fl : List (List Nat)} {index order : Nat}
    {count : Nat → Nat}
    (hlen : fl.length = mo + 1) (hord : order ≤ mo)
    (hub : index + 2 ^ order ≤ 2 ^ mo)
    (hcov : ∀ s, s < 2 ^ mo → freeCover 0 fl s + candInd index order s + count s = 1) :
    index ∉ fl.getD order [] := by
  intro hmem
  have hpos := Nat.two_pow_pos order
  have h1 := candInd_le_coverList hmem order index
  rw [candInd_self] at h1
  have hofl : order < fl.length := by omega
  have h2 := coverList_le_freeCover hofl 0 index
  simp only [Nat.zero_add] at h2
  have h3 := hcov index (by omega)
  rw [candInd_self] at h3
  omega

/-- Exit step of the merge loop: when the loop stops (either at the top
order or because the buddy is not free), the current block is pushed and
all invariant clauses are restored. -/
theorem merge_exit {mo : Nat} {fl : List (List Nat)} {index order : Nat}
    {count : Nat → Nat}
    (hlen : fl.length = mo + 1) (hord : order ≤ mo)
    (hrange : ∀ o, o ≤ mo → ∀ i ∈ fl.getD o [], 2 ^ o ∣ i ∧ i + 2 ^ o ≤ 2 ^ mo)
    (hbuddy : ∀ o, o < mo → ∀ i ∈ fl.getD o [], i ^^^ 2 ^ o ∉ fl.getD o [])
    (hal : 2 ^ order ∣ index) (hub : index + 2 ^ order ≤ 2 ^ mo)
    (hcov : ∀ s, s < 2 ^ mo → freeCover 0 fl s + candInd index order s + count s = 1)
    (hexit : mo ≤ order ∨ (index ^^^ 2 ^ order) ∉ fl.getD order []) :
    (merge_and_free mo fl index order).length = mo + 1 ∧
    (∀ o, o ≤ mo → ∀ i ∈ (merge_and_free mo fl index order).getD o [],
      2 ^ o ∣ i ∧ i + 2 ^ o ≤ 2 ^ mo) ∧
    (∀ o, o < mo → ∀ i ∈ (merge_and_free mo fl index order).getD o [],
      i ^^^ 2 ^ o ∉ (merge_and_free mo fl index order).getD o []) ∧
    (∀ s, s < 2 ^ mo → freeCover 0 (merge_and_free mo fl index order) s + count s = 1) := by
  have hnm := cand_not_mem hlen hord hub hcov
  have hform : merge_and_free mo fl index order
      = fl.set order (fl.getD order [] ++ [index]) := by
    rw [merge_and_free.eq_def]
    by_cases h : mo ≤ order
    · rw [dif_pos h, if_neg hnm]
    · have hbne : (index ^^^ 2 ^ order) ∉ fl.getD order [] := hexit.resolve_left h
      rw [dif_neg h]
      simp only
      rw [if_neg hbne, if_neg hnm]
  rw [hform]
  have hol : order < fl.length := by omega
  refine ⟨by rw [List.length_set, hlen], ?_, ?_, ?_⟩
  · intro o ho x hx
    by_cases h : o = order
    · subst h
      rw [getD_set_self hol] at hx
      rcases List.mem_append.mp hx with h2 | h2
      · exact hrange o ho x h2
      · simp only [List.mem_singleton] at h2
        subst h2
        exact ⟨hal, hub⟩
    · rw [getD_set_ne (fun he => h he.symm)] at hx
      exact hrange o ho x hx
  · intro o ho x hx
    by_cases h : o = order
    · subst h
      have hbne : (index ^^^ 2 ^ o) ∉ fl.getD o [] := hexit.resolve_left (by omega)
      rw [getD_set_self hol] at hx ⊢
      rcases List.mem_append.mp hx with h2 | h2
      · intro hmem2
        rcases List.mem_append.mp hmem2 with h3 | h3
        · exact hbuddy o ho x h2 h3
        · simp only [List.mem_singleton] at h3
          have hx_eq : x = index ^^^ 2 ^ o := xor_cancel_eq h3
          subst hx_eq
          exact hbne h2
      · simp only [List.mem_singleton] at h2
        subst h2
        intro hmem2
        rcases List.mem_append.mp hmem2 with h3 | h3
        · exact hbne h3
        · simp only [List.mem_singleton] at h3
          exact xor_two_pow_ne x o h3
    · rw [getD_set_ne (fun he => h he.symm)] at hx ⊢
      exact hbuddy o ho x hx
  · intro s hs
    have h1 := freeCover_set hol (fl.getD order [] ++ [index]) 0 s
    rw [coverList_append, coverList_cons, coverList_nil] at h1
    simp only [Nat.zero_add] at h1
    have h2 := hcov s hs
    omega

/-- Main induction for merge_and_free: the whole loop restores the
allocator invariant, absorbing the freed block into the free lists. -/
theorem merge_loop_main (mo : Nat) :
    ∀ d (fl : List (List Nat)) (index order : Nat) (count : Nat → Nat),
    mo - order ≤ d → order ≤ mo →
    fl.length = mo + 1 →
    (∀ o, o ≤ mo → ∀ i ∈ fl.getD o [], 2 ^ o ∣ i ∧ i + 2 ^ o ≤ 2 ^ mo) →
    (∀ o, o < mo → ∀ i ∈ fl.getD o [], i ^^^ 2 ^ o ∉ fl.getD o []) →
    2 ^ order ∣ index → index + 2 ^ order ≤ 2 ^ mo →
    (∀ s, s < 2 ^ mo → freeCover 0 fl s + candInd index order s + count s = 1) →
    ((merge_and_free mo fl index order).length = mo + 1 ∧
     (∀ o, o ≤ mo → ∀ i ∈ (merge_and_free mo fl index order).getD o [],
        2 ^ o ∣ i ∧ i + 2 ^ o ≤ 2 ^ mo) ∧
     (∀ o, o < mo → ∀ i ∈ (merge_and_free mo fl index order).getD o [],
        i ^^^ 2 ^ o ∉ (merge_and_free mo fl index order).getD o []) ∧
     (∀ s, s < 2 ^ mo → freeCover 0 (merge_and_free mo fl index order) s + count s = 1)) := by
  intro d
  induction d with
  | zero =>
    intro fl index order count hd hord hlen hrange hbuddy hal hub hcov
    exact merge_exit hlen hord hrange hbuddy hal hub hcov (.inl (by omega))
  | succ d ih =>
    intro fl index order count hd hord hlen hrange hbuddy hal hub hcov
    by_cases hmo : mo ≤ order
    · exact merge_exit hlen hord hrange hbuddy hal hub hcov (.inl hmo)
    by_cases hbf : (index ^^^ 2 ^ order) ∈ fl.getD order []
    case neg =>
      exact merge_exit hlen hord hrange hbuddy hal hub hcov (.inr hbf)
    case pos =>
      have hol : order < fl.length := by omega
      obtain ⟨hbal, hbub⟩ := hrange order hord _ hbf
      obtain ⟨m, hm2, hcases⟩ := buddy_spec hal
      have hpow : (2 : Nat) ^ (order + 1) = 2 ^ order + 2 ^ order := by
        rw [pow_succ]; ring
      have hmin : min index (index ^^^ 2 ^ order) = m := by
        rcases hcases with ⟨h1, h2⟩ | ⟨h1, h2⟩
        · rw [h2, ← h1]
          have := Nat.two_pow_pos order
          omega
        · rw [h2, h1]
          have := Nat.two_pow_pos order
          omega
      have hunfold : merge_and_free mo fl index order
          = merge_and_free mo (fl.set order ((fl.getD order []).erase (index ^^^ 2 ^ order)))
              m (order + 1) := by
        rw [merge_and_free.eq_def, dif_neg hmo]
        simp only
        rw [if_pos hbf, hmin]
      rw [hunfold]
      have hcand : ∀ s, candInd m (order + 1) s
          = candInd index order s + candInd (index ^^^ 2 ^ order) order s := by
        intro s
        rw [candInd_split]
        rcases hcases with ⟨h1, h2⟩ | ⟨h1, h2⟩
        · rw [← h1, h2, ← h1]
        · rw [h2, ← h1]
          omega
      apply ih
      · omega
      · omega
      · rw [List.length_set, hlen]
      · intro o ho x hx
        by_cases h : o = order
        · subst h
          rw [getD_set_self hol] at hx
          exact hrange o ho x (List.mem_of_mem_erase hx)
        · rw [getD_set_ne (fun he => h he.symm)] at hx
          exact hrange o ho x hx
      · intro o ho x hx
        by_cases h : o = order
        · subst h
          rw [getD_set_self hol] at hx ⊢
          intro hmem2
          exact hbuddy o ho x (List.mem_of_mem_erase hx) (List.mem_of_mem_erase hmem2)
        · rw [getD_set_ne (fun he => h he.symm)] at hx ⊢
          exact hbuddy o ho x hx
      · exact hm2
      · rcases hcases with ⟨h1, h2⟩ | ⟨h1, h2⟩
        · rw [← h1] at h2 ⊢
          rw [hpow]
          omega
        · rw [← h2] at h1 ⊢
          rw [hpow]
          omega
      · intro s hs
        have h1 := freeCover_set hol ((fl.getD order []).erase (index ^^^ 2 ^ order)) 0 s
        simp only [Nat.zero_add] at h1
        have h2 := coverList_erase hbf order s
        have h3 := hcand s
        have h4 := hcov s hs
        omega

/-- deallocate of an occupied slot preserves the allocator invariant,
moving that slot from the occupancy count back into the free lists. -/
theorem deallocate_preserve {b : BuddySystem} {count count' : Nat → Nat} {i : Nat}
    (hI : AllocInv b count) (hi : i < b.pool_size)
    (hc1 : count i = 1) (hc0 : count' i = 0)
    (hcs : ∀ s, s ≠ i → count' s = count s) :
    AllocInv (b.deallocate i) count'
      ∧ (b.deallocate i).max_order = b.max_order
      ∧ (b.deallocate i).pool_size = b.pool_size
      ∧ (b.deallocate i).used_count = b.used_count - 1
      ∧ (b.deallocate i).pool = b.pool.set i none := by
  have hrange2 : ∀ o, o ≤ b.max_order → ∀ x ∈ b.free_list.getD o [],
      2 ^ o ∣ x ∧ x + 2 ^ o ≤ 2 ^ b.max_order := by
    intro o ho x hx
    have h := hI.hrange o ho x hx
    rw [hI.hsize] at h
    exact h
  have hi2 : i < 2 ^ b.max_order := by rw [← hI.hsize]; exact hi
  have hcov0 : ∀ s, s < 2 ^ b.max_order →
      freeCover 0 b.free_list s + candInd i 0 s + count' s = 1 := by
    intro s hs
    have h1 := hI.hcover s (by rw [hI.hsize]; exact hs)
    by_cases h : s = i
    · subst h
      rw [candInd_self, hc0]
      omega
    · rw [candInd_zero_ne h, hcs s h]
      omega
  obtain ⟨l1, l2, l3, l4⟩ := merge_loop_main b.max_order b.max_order b.free_list i 0 count'
    (by omega) (Nat.zero_le _) hI.hlen hrange2 hI.hbuddy (by simp)
    (by rw [pow_zero]; omega) hcov0
  have hd : b.deallocate i
      = { b with
          pool := b.pool.set i none
          used_count := b.used_count - 1
          free_list := merge_and_free b.max_order b.free_list i 0 } := by
    unfold BuddySystem.deallocate
    rw [if_neg (by omega)]
  rw [hd]
  refine ⟨⟨l1, hI.hsize, ?_, ?_, l3⟩, rfl, rfl, rfl, rfl⟩
  · intro o ho x hx
    show 2 ^ o ∣ x ∧ x + 2 ^ o ≤ b.pool_size
    rw [hI.hsize]
    exact l2 o ho x hx
  · intro s hs
    have hs' : s < b.pool_size := hs
    rw [hI.hsize] at hs'
    exact l4 s hs'

theorem list_eq_of_getD {α : Type} {l₁ l₂ : List α} (d : α)
    (hlen : l₁.length = l₂.length)
    (h : ∀ n, n < l₁.length → l₁.getD n d = l₂.getD n d) : l₁ = l₂ := by
  apply List.ext_getElem hlen
  intro n h1 h2
  have h3 := h n h1
  rw [List.getD_eq_getElem?_getD, List.getD_eq_getElem?_getD,
    List.getElem?_eq_getElem h1, List.getElem?_eq_getElem h2] at h3
  simpa using h3

/-- Last step of the round trip: once the merge has climbed back to the
order k the block was taken from, it stops there and re-pushes the block,
restoring the original free lists. -/
theorem merge_back_stop {b : BuddySystem} {count : Nat → Nat} (hI : AllocInv b count)
    {k i : Nat} {l : List Nat}
    (hk : k ≤ b.max_order) (hlk : b.free_list.getD k [] = l ++ [i]) (hil : i ∉ l)
    (fl2 : List (List Nat)) (hlen2 : fl2.length = b.max_order + 1)
    (hatk : fl2.getD k [] = l)
    (hagree : ∀ j, j ≠ k → fl2.getD j [] = b.free_list.getD j []) :
    merge_and_free b.max_order fl2 i k = b.free_list := by
  have him : i ∈ b.free_list.getD k [] := by
    rw [hlk]; exact List.mem_append_right l (by simp)
  have hform : merge_and_free b.max_order fl2 i k
      = fl2.set k (fl2.getD k [] ++ [i]) := by
    rw [merge_and_free.eq_def]
    by_cases h : b.max_order ≤ k
    · rw [dif_pos h, if_neg (by rw [hatk]; exact hil)]
    · rw [dif_neg h]
      simp only
      have hbne : (i ^^^ 2 ^ k) ∉ fl2.getD k [] := by
        rw [hatk]
        intro hmem
        exact hI.hbuddy k (by omega) i him
          (by rw [hlk]; exact List.mem_append_left _ hmem)
      rw [if_neg hbne, if_neg (by rw [hatk]; exact hil)]
  rw [hform, hatk]
  apply list_eq_of_getD ([] : List Nat)
  · rw [List.length_set, hlen2, hI.hlen]
  · intro n hn
    rw [List.length_set, hlen2] at hn
    by_cases h : n = k
    · subst h
      rw [getD_set_self (by omega), ← hlk]
    · rw [getD_set_ne (fun he => h he.symm), hagree n h]

/-- Climbing phase of the round trip: from order o up to k, each pushed
buddy i + 2^j is found free and re-absorbed, removing it again. -/
theorem merge_back_climb {b : BuddySystem} {count : Nat → Nat} (hI : AllocInv b count)
    {k i : Nat} {l : List Nat}
    (hk : k ≤ b.max_order) (hlk : b.free_list.getD k [] = l ++ [i]) :
    ∀ e o, o ≤ k → k - o ≤ e → ∀ fl2 : List (List Nat),
      fl2.length = b.max_order + 1 →
      (∀ j, o ≤ j → j < k → fl2.getD j [] = b.free_list.getD j [] ++ [i + 2 ^ j]) →
      fl2.getD k [] = l →
      (∀ j, j < o → fl2.getD j [] = b.free_list.getD j []) →
      (∀ j, k < j → fl2.getD j [] = b.free_list.getD j []) →
      merge_and_free b.max_order fl2 i o = b.free_list := by
  have him : i ∈ b.free_list.getD k [] := by
    rw [hlk]; exact List.mem_append_right l (by simp)
  obtain ⟨hdvk, hbk⟩ := hI.hrange k hk i him
  have hips : i < b.pool_size := by
    have := Nat.two_pow_pos k; omega
  have hil : i ∉ l := by
    intro hmem
    have e1 : 2 ≤ coverList k (b.free_list.getD k []) i := by
      rw [hlk, coverList_append, coverList_cons, coverList_nil]
      have h1 := candInd_le_coverList hmem k i
      rw [candInd_self] at h1
      rw [candInd_self]
      omega
    have hkfl2 : k < b.free_list.length := by rw [hI.hlen]; omega
    have e2 := coverList_le_freeCover hkfl2 0 i
    simp only [Nat.zero_add] at e2
    have e3 := hI.hcover i hips
    omega
  have hnb : ∀ j, j < k → (i + 2 ^ j) ∉ b.free_list.getD j [] := by
    intro j hj hmem
    have h1 : (2 : Nat) ^ j < 2 ^ k := Nat.pow_lt_pow_right (by omega) hj
    have hcand : candInd i k (i + 2 ^ j) = 1 := by
      simp only [candInd]
      rw [if_pos ⟨Nat.le_add_right i (2 ^ j), Nat.add_lt_add_left h1 i⟩]
    have hsj : i + 2 ^ j < b.pool_size :=
      Nat.lt_of_lt_of_le (Nat.add_lt_add_left h1 i) hbk
    exact cover_two_orders hI (by omega) hk (by omega) hmem him
      (candInd_self (i + 2 ^ j) j) hcand hsj
  intro e
  induction e with
  | zero =>
    intro o ho he fl2 hlen2 hmid hatk hlow hhigh
    have hok : o = k := by omega
    subst hok
    exact merge_back_stop hI hk hlk hil fl2 hlen2 hatk
      (fun j hj => by
        rcases Nat.lt_or_ge j o with h | h
        · exact hlow j h
        · exact hhigh j (by omega))
  | succ e ih =>
    intro o ho he fl2 hlen2 hmid hatk hlow hhigh
    by_cases hoe : o = k
    · subst hoe
      exact merge_back_stop hI hk hlk hil fl2 hlen2 hatk
        (fun j hj => by
          rcases Nat.lt_or_ge j o with h | h
          · exact hlow j h
          · exact hhigh j (by omega))
    · have hok : o < k := by omega
      have hdvo : 2 ^ (o + 1) ∣ i := (pow_dvd_pow 2 (by omega)).trans hdvk
      have hbx : i ^^^ 2 ^ o = i + 2 ^ o := two_pow_xor_of_dvd hdvo
      have hbmem : (i ^^^ 2 ^ o) ∈ fl2.getD o [] := by
        rw [hbx, hmid o (le_refl o) hok]
        exact List.mem_append_right _ (by simp)
      have hpos := Nat.two_pow_pos o
      have hmin : min i (i ^^^ 2 ^ o) = i := by
        rw [hbx]; omega
      have herase : (fl2.getD o []).erase (i ^^^ 2 ^ o) = b.free_list.getD o [] := by
        rw [hbx, hmid o (le_refl o) hok,
          List.erase_append_right _ (hnb o hok)]
        simp
      have hunfold : merge_and_free b.max_order fl2 i o
          = merge_and_free b.max_order
              (fl2.set o ((fl2.getD o []).erase (i ^^^ 2 ^ o))) i (o + 1) := by
        rw [merge_and_free.eq_def, dif_neg (by omega)]
        simp only
        rw [if_pos hbmem, hmin]
      rw [hunfold, herase]
      apply ih (o + 1) (by omega) (by omega)
      · rw [List.length_set, hlen2]
      · intro j hj1 hj2
        rw [getD_set_ne (by omega)]
        exact hmid j (by omega) hj2
      · rw [getD_set_ne (by omega)]
        exact hatk
      · intro j hj
        by_cases h : j = o
        · subst h
          rw [getD_set_self (by omega)]
        · rw [getD_set_ne (fun he2 => h he2.symm)]
          exact hlow j (by omega)
      · intro j hj
        rw [getD_set_ne (by omega)]
        exact hhigh j hj

/-- Round trip at the allocator level: allocate immediately followed by
deallocate of the returned slot restores the free lists and used count. -/
theorem allocate_deallocate_free_list {b b' : BuddySystem} {i : Nat}
    {count : Nat → Nat} (hI : AllocInv b count)
    (h : b.allocate = some (i, b')) :
    (b'.deallocate i).free_list = b.free_list
      ∧ (b'.deallocate i).used_count = b.used_count := by
  obtain ⟨k, l, hk, hbelow, hlk, hmo, hps, hpool, huc, hlen', hlow, hatk, hhigh, hcov⟩ :=
    allocate_some_desc hI.hlen h
  have hmem : i ∈ b.free_list.getD k [] := by
    rw [hlk]; exact List.mem_append_right l (by simp)
  obtain ⟨hdvd, hbound⟩ := hI.hrange k hk i hmem
  have hpos := Nat.two_pow_pos k
  have hips : i < b'.pool_size := by rw [hps]; omega
  have hd : b'.deallocate i
      = { b' with
          pool := b'.pool.set i none
          used_count := b'.used_count - 1
          free_list := merge_and_free b'.max_order b'.free_list i 0 } := by
    unfold BuddySystem.deallocate
    rw [if_neg (by omega)]
  have hmerge : merge_and_free b'.max_order b'.free_list i 0 = b.free_list := by
    rw [hmo]
    apply merge_back_climb hI hk hlk k 0 (Nat.zero_le k) (by omega) b'.free_list
      (by rw [hlen', hI.hlen])
    · intro j hj1 hj2
      exact hlow j hj2
    · exact hatk
    · intro j hj
      omega
    · intro j hj
      exact hhigh j hj
  rw [hd]
  refine ⟨hmerge, ?_⟩
  show b'.used_count - 1 = b.used_count
  rw [huc]
  omega

/-! ### Process queue (queue.rs)

The singly-linked ProcessQueue is embedded as a Lean list, head first.
The stored length field always equals the list length and is omitted. -/

/-- ProcessQueue::enqueue (append at tail). -/
def enqueue (q : List PCB) (pcb : PCB) : List PCB := q ++ [pcb]

/-- Walk of ProcessQueue::enqueue_by_priority past the head: advance while
the next node's priority is at least the incoming one, then insert. -/
def enqueueByPriorityAux (pcb : PCB) : List PCB → List PCB
  | [] => [pcb]
  | x :: xs =>
    if x.priority ≥ pcb.priority then x :: enqueueByPriorityAux pcb xs
    else pcb :: x :: xs

/-- ProcessQueue::enqueue_by_priority: insert at the head when the queue
is empty or the incoming priority strictly exceeds the head's, otherwise
walk forward and insert after the last node with priority ≥ incoming. -/
def enqueue_by_priority (q : List PCB) (pcb : PCB) : List PCB :=
  match q with
  | [] => [pcb]
  | h :: t =>
    if pcb.priority > h.priority then pcb :: h :: t
    else h :: enqueueByPriorityAux pcb t

/-- ProcessQueue::dequeue. -/
def dequeue (q : List PCB) : Option PCB × List PCB :=
  match q with
  | [] => (none, [])
  | h :: t => (some h, t)

/-- ProcessQueue::remove_by_pid: remove and return the first node with
the given pid. -/
def remove_by_pid : List PCB → Nat → Option PCB × List PCB
  | [], _ => (none, [])
  | x :: xs, pid =>
    if x.pid = pid then (some x, xs)
    else
      let r := remove_by_pid xs pid
      (r.1, x :: r.2)

/-! ### Process directory (the total_chain HashMap of main.rs)

The pid-keyed HashMap is embedded as an association list; the Process
Manager keeps its keys unique, and nothing observes its order. -/

/-- HashMap::get / get_mut read side. -/
def hm_lookup : List (Nat × PCB) → Nat → Option PCB
  | [], _ => none
  | e :: rest, pid => if e.1 = pid then some e.2 else hm_lookup rest pid

/-- HashMap::remove: return and delete the binding. -/
def hm_remove : List (Nat × PCB) → Nat → Option PCB × List (Nat × PCB)
  | [], _ => (none, [])
  | e :: rest, pid =>
    if e.1 = pid then (some e.2, rest)
    else
      let r := hm_remove rest pid
      (r.1, e :: r.2)

/-- In-place mutation through HashMap::get_mut: apply f to the binding. -/
def hm_update : List (Nat × PCB) → Nat → (PCB → PCB) → List (Nat × PCB)
  | [], _, _ => []
  | e :: rest, pid, f =>
    if e.1 = pid then (e.1, f e.2) :: hm_update rest pid f
    else e :: hm_update rest pid f

/-- HashMap::insert: bind pid to pcb, replacing any previous binding. -/
def hm_insert (chain : List (Nat × PCB)) (pid : Nat) (pcb : PCB) :
    List (Nat × PCB) :=
  (pid, pcb) :: (hm_remove chain pid).2

/-! ### Scheduler (scheduler.rs) -/

/-- Scheduler counters, from scheduler.rs. -/
structure Scheduler where
  total_executed : Nat
  total_switches : Nat
  current_time : Nat
deriving DecidableEq, Repr

/-- Scheduler::execute_process (the pcb argument is only printed). -/
def Scheduler.execute_process (s : Scheduler) : Scheduler :=
  { s with
    total_executed := s.total_executed + 1
    current_time := s.current_time + 1 }

/-- Scheduler::record_switch. -/
def Scheduler.record_switch (s : Scheduler) : Scheduler :=
  { s with total_switches := s.total_switches + 1 }

/-! ### Process manager (main.rs) -/

/-- Error values of the manager primitives; each constructor embeds one
of the distinct Rust error strings. -/
inductive PMError
  | poolExhausted
  | noSuchProcess (pid : Nat)
  | noRunningProcess
  | notReadyOrRunning (pid : Nat)
  | notWaiting (pid : Nat)
  | readyQueueEmpty
  | runningQueueAbnormal
deriving DecidableEq, Repr

def MAX_PCB_COUNT : Nat := 128

structure ProcessManager where
  pcb_pool : BuddySystem
  total_chain : List (Nat × PCB)
  ready_queue : List PCB
  waiting_queue : List PCB
  running_queue : List PCB
  scheduler : Scheduler
  next_pid : Nat
deriving DecidableEq, Repr

/-- ProcessManager::new. -/
def ProcessManager.new : ProcessManager :=
  { pcb_pool := BuddySystem.new MAX_PCB_COUNT
    total_chain := []
    ready_queue := []
    waiting_queue := []
    running_queue := []
    scheduler := ⟨0, 0, 0⟩
    next_pid := 1 }

/-- ProcessManager::create_process: allocate a slot, build the PCB
(state Ready, remaining_time 5), store it in the pool, insert it into
the total chain and into the ready queue by priority. -/
def create_process (pm : ProcessManager) (priority : Nat) :
    Except PMError Nat × ProcessManager :=
  match pm.pcb_pool.allocate with
  | none => (.error .poolExhausted, pm)
  | some (pool_index, pool') =>
    let pid := pm.next_pid
    let new_pcb : PCB :=
      { pid := pid
        priority := priority
        state := .ready
        remaining_time := 5
        pool_index := pool_index }
    (.ok pid,
      { pm with
        pcb_pool := pool'.store_pcb pool_index new_pcb
        total_chain := hm_insert pm.total_chain pid new_pcb
        ready_queue := enqueue_by_priority pm.ready_queue new_pcb
        next_pid := pid + 1 })

/-- ProcessManager::terminate_process: remove from the chain (error if
absent), remove from every queue, and deallocate the slot. -/
def terminate_process (pm : ProcessManager) (pid : Nat) :
    Except PMError Unit × ProcessManager :=
  match hm_remove pm.total_chain pid with
  | (none, _) => (.error (.noSuchProcess pid), pm)
  | (some pcb, chain') =>
    (.ok (),
      { pm with
        total_chain := chain'
        ready_queue := (remove_by_pid pm.ready_queue pid).2
        waiting_queue := (remove_by_pid pm.waiting_queue pid).2
        running_queue := (remove_by_pid pm.running_queue pid).2
        pcb_pool := pm.pcb_pool.deallocate pcb.pool_index })

/-- ProcessManager::time_slice_expired: dequeue the running head (error
if none), reset its quantum to 5 and its state to Ready, mirror both
into the chain, re-insert into the ready queue by priority, and record
one switch. -/
def time_slice_expired (pm : ProcessManager) :
    Except PMError Unit × ProcessManager :=
  match pm.running_queue with
  | [] => (.error .noRunningProcess, pm)
  | h :: t =>
    (.ok (),
      { pm with
        running_queue := t
        total_chain := hm_update pm.total_chain h.pid
          (fun c => { c with state := .ready, remaining_time := 5 })
        ready_queue := enqueue_by_priority pm.ready_queue
          { h with state := .ready, remaining_time := 5 }
        scheduler := pm.scheduler.record_switch })

/-- ProcessManager::suspend_process: look up the pid (error if absent),
remove it from the ready and running queues (error if in neither, with
the two no-op removals already performed), set the chain copy to Waiting
and append that copy to the waiting queue. -/
def suspend_process (pm : ProcessManager) (pid : Nat) :
    Except PMError Unit × ProcessManager :=
  match hm_lookup pm.total_chain pid with
  | none => (.error (.noSuchProcess pid), pm)
  | some c =>
    let r1 := remove_by_pid pm.ready_queue pid
    let r2 := remove_by_pid pm.running_queue pid
    if r1.1.isNone ∧ r2.1.isNone then
      (.error (.notReadyOrRunning pid),
        { pm with ready_queue := r1.2, running_queue := r2.2 })
    else
      (.ok (),
        { pm with
          ready_queue := r1.2
          running_queue := r2.2
          total_chain := hm_update pm.total_chain pid
            (fun x => { x with state := .waiting })
          waiting_queue := enqueue pm.waiting_queue { c with state := .waiting } })

/-- ProcessManager::activate_process: remove from the waiting queue
(error if absent), set state Ready, mirror into the chain, insert into
the ready queue by priority. -/
def activate_process (pm : ProcessManager) (pid : Nat) :
    Except PMError Unit × ProcessManager :=
  match remove_by_pid pm.waiting_queue pid with
  | (none, wq) => (.error (.notWaiting pid), { pm with waiting_queue := wq })
  | (some pcb, wq) =>
    (.ok (),
      { pm with
        waiting_queue := wq
        total_chain := hm_update pm.total_chain pid
          (fun x => { x with state := .ready })
        ready_queue := enqueue_by_priority pm.ready_queue
          { pcb with state := .ready } })

/-- ProcessManager::schedule: with an empty running queue, dequeue the
ready head (error if empty), set it Running, mirror into the chain, push
it onto the running queue, record a switch and execute it; with a
non-empty running queue just execute its head. -/
def schedule (pm : ProcessManager) : Except PMError Unit × ProcessManager :=
  match pm.running_queue with
  | [] =>
    match pm.ready_queue with
    | [] => (.error .readyQueueEmpty, pm)
    | p :: rest =>
      (.ok (),
        { pm with
          ready_queue := rest
          total_chain := hm_update pm.total_chain p.pid
            (fun c => { c with state := .running })
          running_queue := enqueue pm.running_queue { p with state := .running }
          scheduler := pm.scheduler.record_switch.execute_process })
  | _ :: _ =>
    (.ok (), { pm with scheduler := pm.scheduler.execute_process })

/-- Body of ProcessManager::run_one_cycle after the scheduling step:
decrement the running head's remaining_time, mirror the new value into
the chain, and invoke time_slice_expired when it reaches zero.  The Rust
decrement is on a u32 and would trap at zero in a debug build; on every
reachable state the head's remaining_time is at least 1 (proved below),
so Nat subtraction agrees with it. -/
def run_cycle_body (pm : ProcessManager) : ProcessManager :=
  match pm.running_queue with
  | [] => pm
  | h :: t =>
    let pm2 :=
      { pm with
        running_queue := { h with remaining_time := h.remaining_time - 1 } :: t
        total_chain := hm_update pm.total_chain h.pid
          (fun c => { c with remaining_time := h.remaining_time - 1 }) }
    if h.remaining_time - 1 = 0 then (time_slice_expired pm2).2 else pm2

/-- ProcessManager::run_one_cycle: schedule first when nothing is running
(on failure the cycle aborts with the state unchanged), then run the
body above. -/
def run_one_cycle (pm : ProcessManager) : ProcessManager :=
  if pm.running_queue.isEmpty then
    match schedule pm with
    | (.error _, pm') => pm'
    | (.ok _, pm') => run_cycle_body pm'
  else run_cycle_body pm

/-- States reachable from ProcessManager::new through the manager's
primitives. -/
inductive Reachable : ProcessManager → Prop
  | init : Reachable ProcessManager.new
  | create (pm : ProcessManager) (priority : Nat) :
      Reachable pm → Reachable (create_process pm priority).2
  | terminate (pm : ProcessManager) (pid : Nat) :
      Reachable pm → Reachable (terminate_process pm pid).2
  | tse (pm : ProcessManager) :
      Reachable pm → Reachable (time_slice_expired pm).2
  | suspend (pm : ProcessManager) (pid : Nat) :
      Reachable pm → Reachable (suspend_process pm pid).2
  | activate (pm : ProcessManager) (pid : Nat) :
      Reachable pm → Reachable (activate_process pm pid).2
  | sched (pm : ProcessManager) :
      Reachable pm → Reachable (schedule pm).2
  | cycle (pm : ProcessManager) :
      Reachable pm → Reachable (run_one_cycle pm)

/-! ### Queue lemmas -/

/-- The walk inserts the incoming PCB in front of the first node with a
strictly smaller priority. -/
theorem enqueueByPriorityAux_eq (pcb : PCB) (t : List PCB) :
    enqueueByPriorityAux pcb t
      = t.takeWhile (fun x => pcb.priority ≤ x.priority) ++ pcb ::
        t.dropWhile (fun x => pcb.priority ≤ x.priority) := by
  induction t with
  | nil => rfl
  | cons x xs ih =>
    simp only [enqueueByPriorityAux, List.takeWhile_cons, List.dropWhile_cons]
    by_cases h : pcb.priority ≤ x.priority
    · rw [if_pos h]
      simp [h, ih]
    · rw [if_neg h]
      simp [h]

/-- Closed form of enqueue_by_priority: the PCB lands after the maximal
prefix of entries with priority at least its own. -/
theorem enqueue_by_priority_eq (q : List PCB) (pcb : PCB) :
    enqueue_by_priority q pcb
      = q.takeWhile (fun x => pcb.priority ≤ x.priority) ++ pcb ::
        q.dropWhile (fun x => pcb.priority ≤ x.priority) := by
  cases q with
  | nil => rfl
  | cons h t =>
    simp only [enqueue_by_priority, List.takeWhile_cons, List.dropWhile_cons]
    by_cases hp : pcb.priority > h.priority
    · rw [if_pos hp]
      have h1 : ¬ pcb.priority ≤ h.priority := by omega
      simp [h1]
    · rw [if_neg hp]
      have h1 : pcb.priority ≤ h.priority := by omega
      simp [h1, enqueueByPriorityAux_eq]

theorem enqueue_by_priority_perm (q : List PCB) (pcb : PCB) :
    (enqueue_by_priority q pcb).Perm (pcb :: q) := by
  rw [enqueue_by_priority_eq]
  have h1 := @List.perm_middle PCB pcb
    (q.takeWhile (fun x => pcb.priority ≤ x.priority))
    (q.dropWhile (fun x => pcb.priority ≤ x.priority))
  rw [List.takeWhile_append_dropWhile] at h1
  exact h1

/-- Specification of remove_by_pid: either no node carries the pid and
the queue is returned unchanged, or the queue splits around the first
node with that pid, which is removed. -/
theorem remove_by_pid_spec (q : List PCB) (pid : Nat) :
    (remove_by_pid q pid = (none, q) ∧ ∀ x ∈ q, x.pid ≠ pid) ∨
    (∃ x l₁ l₂, q = l₁ ++ x :: l₂ ∧ x.pid = pid ∧ (∀ y ∈ l₁, y.pid ≠ pid) ∧
      remove_by_pid q pid = (some x, l₁ ++ l₂)) := by
  induction q with
  | nil => exact .inl ⟨rfl, by simp⟩
  | cons a t ih =>
    by_cases h : a.pid = pid
    · refine .inr ⟨a, [], t, rfl, h, by simp, ?_⟩
      simp only [remove_by_pid, if_pos h, List.nil_append]
    · rcases ih with ⟨h1, h2⟩ | ⟨x, l₁, l₂, h1, h2, h3, h4⟩
      · refine .inl ⟨?_, ?_⟩
        · simp only [remove_by_pid, if_neg h, h1]
        · intro x hx
          rcases List.mem_cons.mp hx with h3 | h3
          · subst h3; exact h
          · exact h2 x h3
      · refine .inr ⟨x, a :: l₁, l₂, by rw [h1]; rfl, h2, ?_, ?_⟩
        · intro y hy
          rcases List.mem_cons.mp hy with h5 | h5
          · subst h5; exact h
          · exact h3 y h5
        · simp only [remove_by_pid, if_neg h, h4, List.cons_append]

theorem remove_by_pid_none {q : List PCB} {pid : Nat}
    (h : ∀ x ∈ q, x.pid ≠ pid) : remove_by_pid q pid = (none, q) := by
  rcases remove_by_pid_spec q pid with ⟨h1, _⟩ | ⟨x, l₁, l₂, h1, h2, _, _⟩
  · exact h1
  · exact absurd h2 (h x (by rw [h1]; exact List.mem_append_right l₁ (by simp)))

/-! ### Chain (association-list HashMap) lemmas -/

theorem hm_remove_fst (chain : List (Nat × PCB)) (pid : Nat) :
    (hm_remove chain pid).1 = hm_lookup chain pid := by
  induction chain with
  | nil => rfl
  | cons e rest ih =>
    simp only [hm_remove, hm_lookup]
    by_cases h : e.1 = pid
    · rw [if_pos h, if_pos h]
    · rw [if_neg h, if_neg h]
      exact ih

theorem hm_lookup_none_not_mem {chain : List (Nat × PCB)} {pid : Nat}
    (h : hm_lookup chain pid = none) : ∀ e ∈ chain, e.1 ≠ pid := by
  induction chain with
  | nil => simp
  | cons a rest ih =>
    simp only [hm_lookup] at h
    by_cases h1 : a.1 = pid
    · rw [if_pos h1] at h; exact absurd h (by simp)
    · rw [if_neg h1] at h
      intro e he
      rcases List.mem_cons.mp he with h2 | h2
      · subst h2; exact h1
      · exact ih h e h2

theorem hm_remove_none {chain : List (Nat × PCB)} {pid : Nat}
    (h : hm_lookup chain pid = none) : (hm_remove chain pid).2 = chain := by
  induction chain with
  | nil => rfl
  | cons a rest ih =>
    simp only [hm_lookup] at h
    simp only [hm_remove]
    by_cases h1 : a.1 = pid
    · rw [if_pos h1] at h; exact absurd h (by simp)
    · rw [if_neg h1] at h
      rw [if_neg h1]
      simp only
      rw [ih h]

theorem hm_lookup_some_decomp {chain : List (Nat × PCB)} {pid : Nat} {v : PCB}
    (h : hm_lookup chain pid = some v) :
    ∃ l₁ l₂, chain = l₁ ++ (pid, v) :: l₂ ∧ (∀ e ∈ l₁, e.1 ≠ pid) ∧
      (hm_remove chain pid).2 = l₁ ++ l₂ := by
  induction chain with
  | nil => exact absurd h (by simp [hm_lookup])
  | cons a rest ih =>
    simp only [hm_lookup] at h
    by_cases h1 : a.1 = pid
    · rw [if_pos h1] at h
      refine ⟨[], rest, ?_, by simp, ?_⟩
      · simp only [List.nil_append]
        have : a = (pid, v) := by
          cases h
          exact Prod.ext h1 rfl
        rw [this]
      · simp only [hm_remove, if_pos h1, List.nil_append]
    · rw [if_neg h1] at h
      obtain ⟨l₁, l₂, h2, h3, h4⟩ := ih h
      refine ⟨a :: l₁, l₂, by rw [h2]; rfl, ?_, ?_⟩
      · intro e he
        rcases List.mem_cons.mp he with h5 | h5
        · subst h5; exact h1
        · exact h3 e h5
      · simp only [hm_remove, if_neg h1, h4, List.cons_append]

theorem hm_lookup_mem {chain : List (Nat × PCB)} {pid : Nat} {v : PCB}
    (h : hm_lookup chain pid = some v) : (pid, v) ∈ chain := by
  obtain ⟨l₁, l₂, h1, -, -⟩ := hm_lookup_some_decomp h
  rw [h1]
  exact List.mem_append_right l₁ (by simp)

theorem hm_lookup_of_mem_nodup {chain : List (Nat × PCB)} {e : Nat × PCB}
    (hk : (chain.map Prod.fst).Nodup) (he : e ∈ chain) :
    hm_lookup chain e.1 = some e.2 := by
  induction chain with
  | nil => simp at he
  | cons a rest ih =>
    simp only [List.map_cons, List.nodup_cons] at hk
    rcases List.mem_cons.mp he with h1 | h1
    · subst h1
      simp [hm_lookup]
    · simp only [hm_lookup]
      by_cases h2 : a.1 = e.1
      · exfalso
        exact hk.1 (h2 ▸ List.mem_map_of_mem Prod.fst h1)
      · rw [if_neg h2]
        exact ih hk.2 h1

theorem hm_update_lookup_self (chain : List (Nat × PCB)) (pid : Nat)
    (f : PCB → PCB) :
    hm_lookup (hm_update chain pid f) pid = (hm_lookup chain pid).map f := by
  induction chain with
  | nil => rfl
  | cons a rest ih =>
    simp only [hm_update, hm_lookup]
    by_cases h : a.1 = pid
    · rw [if_pos h]
      simp [hm_lookup, if_pos h]
    · rw [if_neg h]
      simp only [hm_lookup, if_neg h]
      exact ih

theorem hm_update_lookup_ne (chain : List (Nat × PCB)) {pid p : Nat}
    (f : PCB → PCB) (h : p ≠ pid) :
    hm_lookup (hm_update chain pid f) p = hm_lookup chain p := by
  induction chain with
  | nil => rfl
  | cons a rest ih =>
    simp only [hm_update, hm_lookup]
    by_cases h1 : a.1 = pid
    · rw [if_pos h1]
      simp only [hm_lookup]
      rw [if_neg (by omega), if_neg (by omega)]
      exact ih
    · rw [if_neg h1]
      simp only [hm_lookup]
      by_cases h2 : a.1 = p
      · rw [if_pos h2, if_pos h2]
      · rw [if_neg h2, if_neg h2]
        exact ih

theorem hm_update_length (chain : List (Nat × PCB)) (pid : Nat) (f : PCB → PCB) :
    (hm_update chain pid f).length = chain.length := by
  induction chain with
  | nil => rfl
  | cons a rest ih =>
    simp only [hm_update]
    by_cases h : a.1 = pid
    · rw [if_pos h]; simp [ih]
    · rw [if_neg h]; simp [ih]

theorem hm_update_keys (chain : List (Nat × PCB)) (pid : Nat) (f : PCB → PCB) :
    (hm_update chain pid f).map Prod.fst = chain.map Prod.fst := by
  induction chain with
  | nil => rfl
  | cons a rest ih =>
    simp only [hm_update]
    by_cases h : a.1 = pid
    · rw [if_pos h]; simp [ih]
    · rw [if_neg h]; simp [ih]

theorem hm_update_mem {chain : List (Nat × PCB)} {pid : Nat} {f : PCB → PCB}
    {e : Nat × PCB} (he : e ∈ hm_update chain pid f) :
    e ∈ chain ∨ ∃ e0 ∈ chain, e0.1 = pid ∧ e = (e0.1, f e0.2) := by
  induction chain with
  | nil => simp [hm_update] at he
  | cons a rest ih =>
    simp only [hm_update] at he
    by_cases h : a.1 = pid
    · rw [if_pos h] at he
      rcases List.mem_cons.mp he with h1 | h1
      · exact .inr ⟨a, by simp, h, h1⟩
      · rcases ih h1 with h2 | ⟨e0, h2, h3, h4⟩
        · exact .inl (List.mem_cons_of_mem a h2)
        · exact .inr ⟨e0, List.mem_cons_of_mem a h2, h3, h4⟩
    · rw [if_neg h] at he
      rcases List.mem_cons.mp he with h1 | h1
      · exact .inl (h1 ▸ List.mem_cons_self a rest)
      · rcases ih h1 with h2 | ⟨e0, h2, h3, h4⟩
        · exact .inl (List.mem_cons_of_mem a h2)
        · exact .inr ⟨e0, List.mem_cons_of_mem a h2, h3, h4⟩

theorem hm_update_update (chain : List (Nat × PCB)) (pid : Nat)
    (f g : PCB → PCB) :
    hm_update (hm_update chain pid f) pid g
      = hm_update chain pid (fun v => g (f v)) := by
  induction chain with
  | nil => rfl
  | cons a rest ih =>
    simp only [hm_update]
    by_cases h : a.1 = pid
    · rw [if_pos h]
      simp only [hm_update, if_pos h, ih]
    · rw [if_neg h]
      simp only [hm_update, if_neg h, ih]

/-! ### Occupancy count derived from the chain -/

/-- Number of chain entries whose PCB occupies slot s. -/
def chainCount : List (Nat × PCB) → Nat → Nat
  | [], _ => 0
  | e :: rest, s => (if e.2.pool_index = s then 1 else 0) + chainCount rest s

theorem chainCount_append (l₁ l₂ : List (Nat × PCB)) (s : Nat) :
    chainCount (l₁ ++ l₂) s = chainCount l₁ s + chainCount l₂ s := by
  induction l₁ with
  | nil => simp [chainCount]
  | cons a t ih =>
    simp only [List.cons_append, chainCount, List.append_eq]
    rw [ih]
    omega

theorem chainCount_update (chain : List (Nat × PCB)) (pid : Nat)
    {f : PCB → PCB} (hf : ∀ c, (f c).pool_index = c.pool_index) (s : Nat) :
    chainCount (hm_update chain pid f) s = chainCount chain s := by
  induction chain with
  | nil => rfl
  | cons a rest ih =>
    simp only [hm_update]
    by_cases h : a.1 = pid
    · rw [if_pos h]
      simp only [chainCount, hf, ih]
    · rw [if_neg h]
      simp only [chainCount, ih]

theorem chainCount_pos {chain : List (Nat × PCB)} {e : Nat × PCB}
    (he : e ∈ chain) : 1 ≤ chainCount chain e.2.pool_index := by
  induction chain with
  | nil => simp at he
  | cons a rest ih =>
    simp only [chainCount]
    rcases List.mem_cons.mp he with h1 | h1
    · rw [← h1, if_pos rfl]
      omega
    · have := ih h1
      omega

/-! ### The manager invariant -/

/-- All queue members, ready then waiting then running. -/
def allQ (pm : ProcessManager) : List PCB :=
  pm.ready_queue ++ pm.waiting_queue ++ pm.running_queue

/-- Invariant of every reachable manager state: the allocator invariant
holds with the chain as occupancy count, the chain and queues mirror each
other exactly (every chain entry sits in exactly one queue and the queue
copy equals the chain copy), every queued PCB has at least one quantum
tick left, pids are below next_pid, and at most one process runs. -/
structure Inv (pm : ProcessManager) : Prop where
  halloc : AllocInv pm.pcb_pool (chainCount pm.total_chain)
  hused : pm.pcb_pool.used_count = (pm.total_chain.length : Int)
  hpidx : ∀ e ∈ pm.total_chain, e.2.pool_index < pm.pcb_pool.pool_size
  hkey : ∀ e ∈ pm.total_chain, e.2.pid = e.1
  hkeys : (pm.total_chain.map Prod.fst).Nodup
  hq : ∀ p ∈ allQ pm, hm_lookup pm.total_chain p.pid = some p
  hqn : ((allQ pm).map PCB.pid).Nodup
  hcq : ∀ e ∈ pm.total_chain, e.2 ∈ allQ pm
  hrem : ∀ p ∈ allQ pm, 1 ≤ p.remaining_time
  hnext : ∀ e ∈ pm.total_chain, e.1 < pm.next_pid
  hrun1 : pm.running_queue.length ≤ 1

theorem AllocInv_count_congr {b : BuddySystem} {c1 c2 : Nat → Nat}
    (h : ∀ s, c1 s = c2 s) (hI : AllocInv b c1) : AllocInv b c2 :=
  ⟨hI.hlen, hI.hsize, hI.hrange,
    fun s hs => by rw [← h s]; exact hI.hcover s hs, hI.hbuddy⟩

/-- Preservation of the invariant by every transition that moves one
queue member x to an updated copy y (mirrored into the chain through
hm_update) while permuting nothing else. -/
theorem inv_move {pm pm' : ProcessManager} (hI : Inv pm)
    {x y : PCB} {g : PCB → PCB} {V : List PCB}
    (hgx : g x = y)
    (hgpid : ∀ c, (g c).pid = c.pid) (hgpool : ∀ c, (g c).pool_index = c.pool_index)
    (hchain : pm'.total_chain = hm_update pm.total_chain x.pid g)
    (hpool2 : pm'.pcb_pool = pm.pcb_pool)
    (hnp : pm'.next_pid = pm.next_pid)
    (hs : (allQ pm).Perm (x :: V))
    (hs' : (allQ pm').Perm (y :: V))
    (hxrem : 1 ≤ y.remaining_time)
    (hN : pm'.running_queue.length ≤ 1) :
    Inv pm' := by
  have hxpid : y.pid = x.pid := by rw [← hgx, hgpid]
  have hxmem : x ∈ allQ pm := hs.mem_iff.mpr (List.mem_cons_self x V)
  have hlx : hm_lookup pm.total_chain x.pid = some x := hI.hq x hxmem
  have hlx' : hm_lookup pm'.total_chain x.pid = some y := by
    rw [hchain, hm_update_lookup_self, hlx, Option.map, hgx]
  have hrestpid : x.pid ∉ V.map PCB.pid := by
    have h1 := (hs.map PCB.pid).nodup_iff.mpr
    have h2 : ((x :: V).map PCB.pid).Nodup := (hs.map PCB.pid).symm.nodup_iff.mpr hI.hqn
    simp only [List.map_cons, List.nodup_cons] at h2
    exact h2.1
  have hrestmem : ∀ p ∈ V, p ∈ allQ pm :=
    fun p hp => hs.mem_iff.mpr (List.mem_cons_of_mem x hp)
  have hrestpid2 : ∀ p ∈ V, p.pid ≠ x.pid := by
    intro p hp he
    exact hrestpid (he ▸ List.mem_map_of_mem PCB.pid hp)
  have hmem' : ∀ p, p ∈ allQ pm' ↔ p = y ∨ p ∈ V := by
    intro p
    rw [hs'.mem_iff, List.mem_cons]
  refine ⟨?_, ?_, ?_, ?_, ?_, ?_, ?_, ?_, ?_, ?_, hN⟩
  · rw [hchain, hpool2]
    exact AllocInv_count_congr
      (fun s => (chainCount_update pm.total_chain x.pid hgpool s).symm) hI.halloc
  · rw [hchain, hpool2, hm_update_length]
    exact hI.hused
  · intro e he
    rw [hchain] at he
    rw [hpool2]
    rcases hm_update_mem he with h1 | ⟨e0, h0, _, h2⟩
    · exact hI.hpidx e h1
    · rw [h2]
      show (g e0.2).pool_index < pm.pcb_pool.pool_size
      rw [hgpool]
      exact hI.hpidx e0 h0
  · intro e he
    rw [hchain] at he
    rcases hm_update_mem he with h1 | ⟨e0, h0, _, h2⟩
    · exact hI.hkey e h1
    · rw [h2]
      show (g e0.2).pid = e0.1
      rw [hgpid]
      exact hI.hkey e0 h0
  · rw [hchain, hm_update_keys]
    exact hI.hkeys
  · intro p hp
    rcases (hmem' p).mp hp with h1 | h1
    · subst h1
      rw [hxpid]
      exact hlx'
    · rw [hchain, hm_update_lookup_ne pm.total_chain g (hrestpid2 p h1)]
      exact hI.hq p (hrestmem p h1)
  · apply (hs'.map PCB.pid).symm.nodup_iff.mp
    simp only [List.map_cons, List.nodup_cons]
    refine ⟨by rw [hxpid]; exact hrestpid, ?_⟩
    have h2 : ((x :: V).map PCB.pid).Nodup := (hs.map PCB.pid).symm.nodup_iff.mpr hI.hqn
    simp only [List.map_cons, List.nodup_cons] at h2
    exact h2.2
  · intro e he
    rw [hchain] at he
    have hkeys' : ((hm_update pm.total_chain x.pid g).map Prod.fst).Nodup := by
      rw [hm_update_keys]; exact hI.hkeys
    have hle := hm_lookup_of_mem_nodup hkeys' he
    rcases hm_update_mem he with h1 | ⟨e0, h0, hk0, h2⟩
    · have hmem0 := hI.hcq e h1
      have h3 := hs.mem_iff.mp hmem0
      rcases List.mem_cons.mp h3 with h4 | h4
      · have hkey0 : e.1 = x.pid := by rw [← hI.hkey e h1, h4]
        rw [hkey0, ← hchain, hlx'] at hle
        injection hle with h5
        exact (hmem' e.2).mpr (.inl h5.symm)
      · exact (hmem' e.2).mpr (.inr h4)
    · have he0 := hm_lookup_of_mem_nodup hI.hkeys h0
      rw [hk0, hlx] at he0
      injection he0 with h6
      rw [h2]
      show (e0.1, g e0.2).2 ∈ allQ pm'
      exact (hmem' (g e0.2)).mpr (.inl (by rw [← h6, hgx]))
  · intro p hp
    rcases (hmem' p).mp hp with h1 | h1
    · subst h1; exact hxrem
    · exact hI.hrem p (hrestmem p h1)
  · intro e he
    rw [hchain] at he
    rw [hnp]
    rcases hm_update_mem he with h1 | ⟨e0, h0, _, h2⟩
    · exact hI.hnext e h1
    · rw [h2]
      exact hI.hnext e0 h0

theorem perm_snoc {α : Type} (l : List α) (a : α) : (l ++ [a]).Perm (a :: l) := by
  have h := @List.perm_middle α a l []
  simpa using h

theorem hm_remove_lookup_ne {chain : List (Nat × PCB)} {pid p : Nat}
    (h : p ≠ pid) : hm_lookup (hm_remove chain pid).2 p = hm_lookup chain p := by
  induction chain with
  | nil => rfl
  | cons a rest ih =>
    simp only [hm_remove, hm_lookup]
    by_cases h1 : a.1 = pid
    · rw [if_pos h1]
      simp only [hm_lookup]
      rw [if_neg (by omega)]
    · rw [if_neg h1]
      simp only [hm_lookup]
      by_cases h2 : a.1 = p
      · rw [if_pos h2, if_pos h2]
      · rw [if_neg h2, if_neg h2]
        exact ih

theorem hm_remove_sublist (chain : List (Nat × PCB)) (pid : Nat) :
    ((hm_remove chain pid).2).Sublist chain := by
  induction chain with
  | nil => simp [hm_remove]
  | cons a rest ih =>
    simp only [hm_remove]
    by_cases h1 : a.1 = pid
    · rw [if_pos h1]
      exact List.sublist_cons_self a rest
    · rw [if_neg h1]
      exact List.Sublist.cons₂ a ih

theorem hm_remove_mem {chain : List (Nat × PCB)} {pid : Nat} {e : Nat × PCB}
    (h : e ∈ (hm_remove chain pid).2) : e ∈ chain :=
  (hm_remove_sublist chain pid).mem h

theorem hm_remove_no_key {chain : List (Nat × PCB)} {pid : Nat} {v : PCB}
    (hk : (chain.map Prod.fst).Nodup) (hlk : hm_lookup chain pid = some v) :
    ∀ e ∈ (hm_remove chain pid).2, e.1 ≠ pid := by
  obtain ⟨l₁, l₂, hdec, hl₁, hrem⟩ := hm_lookup_some_decomp hlk
  rw [hrem]
  rw [hdec] at hk
  simp only [List.map_append, List.map_cons] at hk
  rw [List.nodup_middle, List.nodup_cons] at hk
  intro e he h
  apply hk.1
  rw [← h, ← List.map_append]
  exact List.mem_map_of_mem Prod.fst he

theorem store_pcb_free_list (b : BuddySystem) (i : Nat) (p : PCB) :
    (b.store_pcb i p).free_list = b.free_list := by
  unfold BuddySystem.store_pcb
  split <;> rfl

theorem store_pcb_max_order (b : BuddySystem) (i : Nat) (p : PCB) :
    (b.store_pcb i p).max_order = b.max_order := by
  unfold BuddySystem.store_pcb
  split <;> rfl

theorem store_pcb_pool_size (b : BuddySystem) (i : Nat) (p : PCB) :
    (b.store_pcb i p).pool_size = b.pool_size := by
  unfold BuddySystem.store_pcb
  split <;> rfl

theorem store_pcb_used_count (b : BuddySystem) (i : Nat) (p : PCB) :
    (b.store_pcb i p).used_count = b.used_count := by
  unfold BuddySystem.store_pcb
  split <;> rfl

theorem AllocInv_fields {b b' : BuddySystem} {count : Nat → Nat}
    (h1 : b'.free_list = b.free_list) (h2 : b'.max_order = b.max_order)
    (h3 : b'.pool_size = b.pool_size) (hI : AllocInv b count) :
    AllocInv b' count := by
  exact ⟨by rw [h1, h2]; exact hI.hlen,
    by rw [h3, h2]; exact hI.hsize,
    by rw [h1, h2, h3]; exact hI.hrange,
    by rw [h1, h3]; exact hI.hcover,
    by rw [h1, h2]; exact hI.hbuddy⟩

/-- Invariant transfer between states with identical core fields. -/
theorem inv_fields {pm pm' : ProcessManager} (hI : Inv pm)
    (h1 : pm'.pcb_pool = pm.pcb_pool) (h2 : pm'.total_chain = pm.total_chain)
    (h3 : pm'.ready_queue = pm.ready_queue)
    (h4 : pm'.waiting_queue = pm.waiting_queue)
    (h5 : pm'.running_queue = pm.running_queue)
    (h6 : pm'.next_pid = pm.next_pid) : Inv pm' := by
  have hall : allQ pm' = allQ pm := by unfold allQ; rw [h3, h4, h5]
  exact ⟨by rw [h1, h2]; exact hI.halloc,
    by rw [h1, h2]; exact hI.hused,
    by rw [h1, h2]; exact hI.hpidx,
    by rw [h2]; exact hI.hkey,
    by rw [h2]; exact hI.hkeys,
    by rw [h2, hall]; exact hI.hq,
    by rw [hall]; exact hI.hqn,
    by rw [h2, hall]; exact hI.hcq,
    by rw [hall]; exact hI.hrem,
    by rw [h2, h6]; exact hI.hnext,
    by rw [h5]; exact hI.hrun1⟩

/-- Invariant preservation for the creation pattern: one fresh PCB with
pid next_pid is bound in the chain, stored in a freshly allocated slot,
and added to a queue. -/
theorem inv_add {pm pm' : ProcessManager} (hI : Inv pm)
    {x : PCB} {i : Nat} {bp : BuddySystem}
    (hx : x.pid = pm.next_pid) (hxi : x.pool_index = i)
    (hxrem : 1 ≤ x.remaining_time)
    (halloc2 : AllocInv bp
      (fun s => chainCount pm.total_chain s + (if s = i then 1 else 0)))
    (hbp_ps : bp.pool_size = pm.pcb_pool.pool_size)
    (hbp_used : bp.used_count = pm.pcb_pool.used_count + 1)
    (hips : i < pm.pcb_pool.pool_size)
    (hchain : pm'.total_chain = (pm.next_pid, x) :: pm.total_chain)
    (hpool2 : pm'.pcb_pool = bp)
    (hnp : pm'.next_pid = pm.next_pid + 1)
    (hs' : (allQ pm').Perm (x :: allQ pm))
    (hN : pm'.running_queue.length ≤ 1) :
    Inv pm' := by
  have hqpid : ∀ p ∈ allQ pm, p.pid < pm.next_pid := by
    intro p hp
    have h1 := hI.hq p hp
    have h2 := hm_lookup_mem h1
    exact hI.hnext _ h2
  have hmem' : ∀ p, p ∈ allQ pm' ↔ p = x ∨ p ∈ allQ pm := by
    intro p
    rw [hs'.mem_iff, List.mem_cons]
  refine ⟨?_, ?_, ?_, ?_, ?_, ?_, ?_, ?_, ?_, ?_, hN⟩
  · rw [hchain, hpool2]
    refine AllocInv_count_congr (fun s => ?_) halloc2
    simp only [chainCount, hxi]
    by_cases h : s = i
    · rw [if_pos h, if_pos (by omega)]
      omega
    · rw [if_neg h, if_neg (by omega)]
      omega
  · rw [hchain, hpool2, hbp_used, hI.hused]
    simp only [List.length_cons]
    push_cast
    ring
  · intro e he
    rw [hchain] at he
    rw [hpool2, hbp_ps]
    rcases List.mem_cons.mp he with h1 | h1
    · rw [h1]
      show x.pool_index < pm.pcb_pool.pool_size
      rw [hxi]
      exact hips
    · exact hI.hpidx e h1
  · intro e he
    rw [hchain] at he
    rcases List.mem_cons.mp he with h1 | h1
    · rw [h1]; exact hx
    · exact hI.hkey e h1
  · rw [hchain]
    simp only [List.map_cons, List.nodup_cons]
    refine ⟨?_, hI.hkeys⟩
    intro hmem
    obtain ⟨e, he, hkey⟩ := List.mem_map.mp hmem
    have := hI.hnext e he
    omega
  · intro p hp
    rcases (hmem' p).mp hp with h1 | h1
    · subst h1
      rw [hchain]
      simp [hm_lookup, hx]
    · rw [hchain]
      simp only [hm_lookup]
      rw [if_neg (by have := hqpid p h1; omega)]
      exact hI.hq p h1
  · apply (hs'.map PCB.pid).symm.nodup_iff.mp
    simp only [List.map_cons, List.nodup_cons]
    refine ⟨?_, hI.hqn⟩
    intro hmem
    obtain ⟨p, hp, hpe⟩ := List.mem_map.mp hmem
    have := hqpid p hp
    omega
  · intro e he
    rw [hchain] at he
    rcases List.mem_cons.mp he with h1 | h1
    · rw [h1]
      exact (hmem' x).mpr (.inl rfl)
    · exact (hmem' e.2).mpr (.inr (hI.hcq e h1))
  · intro p hp
    rcases (hmem' p).mp hp with h1 | h1
    · subst h1; exact hxrem
    · exact hI.hrem p h1
  · intro e he
    rw [hchain] at he
    rw [hnp]
    rcases List.mem_cons.mp he with h1 | h1
    · rw [h1]
      omega
    · have := hI.hnext e h1
      omega

/-- Invariant preservation for the termination pattern: the chain binding
and the unique queue copy of one pid disappear together, and the
allocator is handed back its slot (halloc is supplied by the caller from
deallocate_preserve). -/
theorem inv_del {pm pm' : ProcessManager} (hI : Inv pm) {pid : Nat} {v : PCB}
    (hlk : hm_lookup pm.total_chain pid = some v)
    (hchain : pm'.total_chain = (hm_remove pm.total_chain pid).2)
    (halloc2 : AllocInv pm'.pcb_pool (chainCount pm'.total_chain))
    (hps2 : pm'.pcb_pool.pool_size = pm.pcb_pool.pool_size)
    (hused2 : pm'.pcb_pool.used_count = pm.pcb_pool.used_count - 1)
    (hnp : pm'.next_pid = pm.next_pid)
    (hs : (allQ pm).Perm (v :: allQ pm'))
    (hN : pm'.running_queue.length ≤ 1) :
    Inv pm' := by
  have hvpid : v.pid = pid := hI.hkey _ (hm_lookup_mem hlk)
  have hlen2 : pm.total_chain.length = pm'.total_chain.length + 1 := by
    obtain ⟨l₁, l₂, hdec, -, hrem⟩ := hm_lookup_some_decomp hlk
    rw [hchain, hrem, hdec]
    simp only [List.length_append, List.length_cons]
    omega
  have hrest : ∀ p ∈ allQ pm', p ∈ allQ pm :=
    fun p hp => hs.mem_iff.mpr (List.mem_cons_of_mem v hp)
  have hqn0 : ((v :: allQ pm').map PCB.pid).Nodup :=
    (hs.map PCB.pid).symm.nodup_iff.mpr hI.hqn
  have hrestpid : ∀ p ∈ allQ pm', p.pid ≠ pid := by
    simp only [List.map_cons, List.nodup_cons] at hqn0
    intro p hp he
    exact hqn0.1 (hvpid ▸ he ▸ List.mem_map_of_mem PCB.pid hp)
  refine ⟨halloc2, ?_, ?_, ?_, ?_, ?_, ?_, ?_, ?_, ?_, hN⟩
  · rw [hused2, hI.hused]
    omega
  · intro e he
    rw [hchain] at he
    rw [hps2]
    exact hI.hpidx e (hm_remove_mem he)
  · intro e he
    rw [hchain] at he
    exact hI.hkey e (hm_remove_mem he)
  · rw [hchain]
    exact hI.hkeys.sublist ((hm_remove_sublist pm.total_chain pid).map Prod.fst)
  · intro p hp
    rw [hchain, hm_remove_lookup_ne (hrestpid p hp)]
    exact hI.hq p (hrest p hp)
  · simp only [List.map_cons, List.nodup_cons] at hqn0
    exact hqn0.2
  · intro e he
    rw [hchain] at he
    have h1 := hI.hcq e (hm_remove_mem he)
    have h2 := hs.mem_iff.mp h1
    rcases List.mem_cons.mp h2 with h3 | h3
    · exfalso
      have h4 : e.1 = pid := by
        rw [← hI.hkey e (hm_remove_mem he), h3, hvpid]
      exact hm_remove_no_key hI.hkeys hlk e he h4
    · exact h3
  · intro p hp
    exact hI.hrem p (hrest p hp)
  · intro e he
    rw [hchain] at he
    rw [hnp]
    exact hI.hnext e (hm_remove_mem he)

/-! ### Preservation of the invariant by each primitive -/

theorem create_preserve (pm : ProcessManager) (pr : Nat) (hI : Inv pm) :
    Inv (create_process pm pr).2 := by
  unfold create_process
  cases hall : pm.pcb_pool.allocate with
  | none => simp only [hall]; exact hI
  | some pr2 =>
    obtain ⟨i, pool'⟩ := pr2
    simp only [hall]
    obtain ⟨hAI, hips, hcnt, hmo, hps, hpool, huc⟩ := allocate_preserve hI.halloc hall
    have hfresh : hm_lookup pm.total_chain pm.next_pid = none := by
      cases hl : hm_lookup pm.total_chain pm.next_pid with
      | none => rfl
      | some v =>
        have := hI.hnext _ (hm_lookup_mem hl)
        omega
    refine inv_add (x := ⟨pm.next_pid, pr, .ready, 5, i⟩) (i := i) hI rfl rfl ?_
      ?_ ?_ ?_ hips ?_ rfl rfl ?_ ?_
    · show (1 : Nat) ≤ 5
      omega
    · exact AllocInv_fields (store_pcb_free_list pool' i _) (store_pcb_max_order pool' i _)
        (store_pcb_pool_size pool' i _) hAI
    · rw [store_pcb_pool_size, hps]
    · rw [store_pcb_used_count, huc]
    · show hm_insert pm.total_chain pm.next_pid _ = _
      unfold hm_insert
      rw [hm_remove_none hfresh]
    · exact ((enqueue_by_priority_perm pm.ready_queue _).append_right
        pm.waiting_queue).append_right pm.running_queue
    · exact hI.hrun1

theorem terminate_preserve (pm : ProcessManager) (pid : Nat) (hI : Inv pm) :
    Inv (terminate_process pm pid).2 := by
  unfold terminate_process
  rcases hr : hm_remove pm.total_chain pid with ⟨r1, chain'⟩
  cases r1 with
  | none => simp only [hr]; exact hI
  | some v =>
    simp only [hr]
    have hlk : hm_lookup pm.total_chain pid = some v := by
      rw [← hm_remove_fst pm.total_chain pid, hr]
    have hvmem := hm_lookup_mem hlk
    have hvpid : v.pid = pid := hI.hkey _ hvmem
    have hvps : v.pool_index < pm.pcb_pool.pool_size := hI.hpidx _ hvmem
    have hvq : v ∈ allQ pm := hI.hcq _ hvmem
    -- occupancy accounting for the freed slot
    have hcc : ∀ s, chainCount chain' s + (if v.pool_index = s then 1 else 0)
        = chainCount pm.total_chain s := by
      intro s
      obtain ⟨l₁, l₂, hdec, -, hrem⟩ := hm_lookup_some_decomp hlk
      have hch : chain' = l₁ ++ l₂ := by rw [← hrem, hr]
      rw [hch, hdec, chainCount_append, chainCount_append]
      simp only [chainCount]
      omega
    have hc1 : chainCount pm.total_chain v.pool_index = 1 := by
      have h1 : 1 ≤ chainCount pm.total_chain v.pool_index := chainCount_pos hvmem
      have h2 := hI.halloc.hcover v.pool_index hvps
      omega
    have hc0 : chainCount chain' v.pool_index = 0 := by
      have := hcc v.pool_index
      rw [if_pos rfl] at this
      omega
    have hcs : ∀ s, s ≠ v.pool_index → chainCount chain' s = chainCount pm.total_chain s := by
      intro s hne
      have := hcc s
      rw [if_neg (by omega)] at this
      omega
    obtain ⟨hAI, hdmo, hdps, hduc, hdpool⟩ :=
      deallocate_preserve hI.halloc hvps hc1 hc0 hcs
    have huniq : ∀ x ∈ allQ pm, x.pid = pid → x = v := by
      intro x hx hxp
      have h1 := hI.hq x hx
      rw [hxp, hlk] at h1
      injection h1 with h2
      exact h2.symm
    have hmapn := hI.hqn
    simp only [allQ, List.map_append] at hmapn
    rw [List.nodup_append] at hmapn
    obtain ⟨hmap12, -, hd3⟩ := hmapn
    rw [List.nodup_append] at hmap12
    obtain ⟨-, -, hd12⟩ := hmap12
    have hmemr : ∀ x ∈ pm.ready_queue, x ∈ allQ pm := by
      intro x hx
      exact List.mem_append_left _ (List.mem_append_left _ hx)
    have hmemw : ∀ x ∈ pm.waiting_queue, x ∈ allQ pm := by
      intro x hx
      exact List.mem_append_left _ (List.mem_append_right _ hx)
    have hmemn : ∀ x ∈ pm.running_queue, x ∈ allQ pm := by
      intro x hx
      exact List.mem_append_right _ hx
    -- splitting the queue that holds v
    have hqsplit : ∀ q : List PCB, (∀ x ∈ q, x ∈ allQ pm) → v ∈ q →
        ∃ l₁ l₂, q = l₁ ++ v :: l₂ ∧ remove_by_pid q pid = (some v, l₁ ++ l₂) := by
      intro q hsub hvq2
      rcases remove_by_pid_spec q pid with ⟨h1, h2⟩ | ⟨x, l₁, l₂, h1, h2, h3, h4⟩
      · exact absurd hvpid (h2 v hvq2)
      · have hx : x = v := huniq x
          (hsub x (by rw [h1]; exact List.mem_append_right l₁ (by simp))) h2
        exact ⟨l₁, l₂, by rw [h1, hx], by rw [h4, hx]⟩
    -- a queue not holding v is untouched
    have hqnone : ∀ q : List PCB, (∀ x ∈ q, x ∈ allQ pm) → v ∉ q →
        remove_by_pid q pid = (none, q) := by
      intro q hsub hvq2
      apply remove_by_pid_none
      intro x hx hxp
      exact hvq2 ((huniq x (hsub x hx) hxp) ▸ hx)
    have hdel : (allQ pm).Perm
        (v :: ((remove_by_pid pm.ready_queue pid).2 ++ (remove_by_pid pm.waiting_queue pid).2
          ++ (remove_by_pid pm.running_queue pid).2)) →
        (remove_by_pid pm.running_queue pid).2.length ≤ 1 →
        Inv { pm with
            total_chain := chain'
            ready_queue := (remove_by_pid pm.ready_queue pid).2
            waiting_queue := (remove_by_pid pm.waiting_queue pid).2
            running_queue := (remove_by_pid pm.running_queue pid).2
            pcb_pool := pm.pcb_pool.deallocate v.pool_index } := by
      intro hs hN
      refine inv_del hI hlk ?_ hAI ?_ ?_ rfl ?_ hN
      · show chain' = (hm_remove pm.total_chain pid).2
        rw [hr]
      · exact hdps
      · exact hduc
      · exact hs
    -- locate v and build the permutation
    rcases List.mem_append.mp hvq with hv12 | hvn
    · rcases List.mem_append.mp hv12 with hvr | hvw
      · obtain ⟨l₁, l₂, hdq, hrq⟩ := hqsplit pm.ready_queue hmemr hvr
        have hvnw : v ∉ pm.waiting_queue := by
          intro hmem
          exact hd12 (hvpid ▸ List.mem_map_of_mem PCB.pid hvr)
            (hvpid ▸ List.mem_map_of_mem PCB.pid hmem)
        have hvnn : v ∉ pm.running_queue := by
          intro hmem
          exact hd3 (List.mem_append_left _ (hvpid ▸ List.mem_map_of_mem PCB.pid hvr))
            (hvpid ▸ List.mem_map_of_mem PCB.pid hmem)
        apply hdel
        · rw [hrq, hqnone pm.waiting_queue hmemw hvnw,
            hqnone pm.running_queue hmemn hvnn]
          dsimp only
          show ((pm.ready_queue ++ pm.waiting_queue) ++ pm.running_queue).Perm _
          rw [hdq]
          exact (List.perm_middle.append_right pm.waiting_queue).append_right
            pm.running_queue
        · rw [hqnone pm.running_queue hmemn hvnn]
          exact hI.hrun1
      · obtain ⟨l₁, l₂, hdq, hrq⟩ := hqsplit pm.waiting_queue hmemw hvw
        have hvnr : v ∉ pm.ready_queue := by
          intro hmem
          exact hd12 (hvpid ▸ List.mem_map_of_mem PCB.pid hmem)
            (hvpid ▸ List.mem_map_of_mem PCB.pid hvw)
        have hvnn : v ∉ pm.running_queue := by
          intro hmem
          exact hd3 (List.mem_append_right _ (hvpid ▸ List.mem_map_of_mem PCB.pid hvw))
            (hvpid ▸ List.mem_map_of_mem PCB.pid hmem)
        apply hdel
        · rw [hrq, hqnone pm.ready_queue hmemr hvnr,
            hqnone pm.running_queue hmemn hvnn]
          dsimp only
          show ((pm.ready_queue ++ pm.waiting_queue) ++ pm.running_queue).Perm _
          rw [hdq]
          exact ((List.perm_middle.append_left pm.ready_queue).append_right
            pm.running_queue).trans (List.perm_middle.append_right pm.running_queue)
        · rw [hqnone pm.running_queue hmemn hvnn]
          exact hI.hrun1
    · obtain ⟨l₁, l₂, hdq, hrq⟩ := hqsplit pm.running_queue hmemn hvn
      have hvnr : v ∉ pm.ready_queue := by
        intro hmem
        exact hd3 (List.mem_append_left _ (hvpid ▸ List.mem_map_of_mem PCB.pid hmem))
          (hvpid ▸ List.mem_map_of_mem PCB.pid hvn)
      have hvnw : v ∉ pm.waiting_queue := by
        intro hmem
        exact hd3 (List.mem_append_right _ (hvpid ▸ List.mem_map_of_mem PCB.pid hmem))
          (hvpid ▸ List.mem_map_of_mem PCB.pid hvn)
      apply hdel
      · rw [hrq, hqnone pm.ready_queue hmemr hvnr,
          hqnone pm.waiting_queue hmemw hvnw]
        dsimp only
        show ((pm.ready_queue ++ pm.waiting_queue) ++ pm.running_queue).Perm _
        rw [hdq]
        exact (List.perm_middle.append_left
          (pm.ready_queue ++ pm.waiting_queue)).trans List.perm_middle
      · rw [hrq]
        have h9 : pm.running_queue.length ≤ 1 := hI.hrun1
        rw [hdq] at h9
        dsimp only
        simp only [List.length_append, List.length_cons] at h9 ⊢
        omega

/-- The chain copy is the unique queue member with its pid. -/
theorem uniq_of_inv {pm : ProcessManager} (hI : Inv pm) {pid : Nat} {v : PCB}
    (hlk : hm_lookup pm.total_chain pid = some v) :
    ∀ x ∈ allQ pm, x.pid = pid → x = v := by
  intro x hx hxp
  have h1 := hI.hq x hx
  rw [hxp, hlk] at h1
  injection h1 with h2
  exact h2.symm

theorem queue_split_of_inv {pm : ProcessManager} (hI : Inv pm) {pid : Nat} {v : PCB}
    (hlk : hm_lookup pm.total_chain pid = some v)
    {q : List PCB} (hsub : ∀ x ∈ q, x ∈ allQ pm) (hvq : v ∈ q) :
    ∃ l₁ l₂, q = l₁ ++ v :: l₂ ∧ remove_by_pid q pid = (some v, l₁ ++ l₂) := by
  have hvpid : v.pid = pid := hI.hkey _ (hm_lookup_mem hlk)
  rcases remove_by_pid_spec q pid with ⟨h1, h2⟩ | ⟨x, l₁, l₂, h1, h2, h3, h4⟩
  · exact absurd hvpid (h2 v hvq)
  · have hx : x = v := uniq_of_inv hI hlk x
      (hsub x (by rw [h1]; exact List.mem_append_right l₁ (by simp))) h2
    exact ⟨l₁, l₂, by rw [h1, hx], by rw [h4, hx]⟩

theorem queue_none_of_inv {pm : ProcessManager} (hI : Inv pm) {pid : Nat} {v : PCB}
    (hlk : hm_lookup pm.total_chain pid = some v)
    {q : List PCB} (hsub : ∀ x ∈ q, x ∈ allQ pm) (hvq : v ∉ q) :
    remove_by_pid q pid = (none, q) := by
  apply remove_by_pid_none
  intro x hx hxp
  exact hvq ((uniq_of_inv hI hlk x (hsub x hx) hxp) ▸ hx)

theorem mem_allQ_ready {pm : ProcessManager} {x : PCB} (h : x ∈ pm.ready_queue) :
    x ∈ allQ pm :=
  List.mem_append_left _ (List.mem_append_left _ h)

theorem mem_allQ_waiting {pm : ProcessManager} {x : PCB} (h : x ∈ pm.waiting_queue) :
    x ∈ allQ pm :=
  List.mem_append_left _ (List.mem_append_right _ h)

theorem mem_allQ_running {pm : ProcessManager} {x : PCB} (h : x ∈ pm.running_queue) :
    x ∈ allQ pm :=
  List.mem_append_right _ h

/-- Pairwise pid-disjointness of the three queues. -/
theorem queues_disjoint {pm : ProcessManager} (hI : Inv pm) :
    (pm.ready_queue.map PCB.pid).Disjoint (pm.waiting_queue.map PCB.pid)
    ∧ ((pm.ready_queue.map PCB.pid) ++ (pm.waiting_queue.map PCB.pid)).Disjoint
        (pm.running_queue.map PCB.pid) := by
  have h := hI.hqn
  simp only [allQ, List.map_append] at h
  rw [List.nodup_append] at h
  obtain ⟨h12, -, hd3⟩ := h
  rw [List.nodup_append] at h12
  exact ⟨h12.2.2, hd3⟩

theorem tse_preserve (pm : ProcessManager) (hI : Inv pm) :
    Inv (time_slice_expired pm).2 := by
  unfold time_slice_expired
  cases hq0 : pm.running_queue with
  | nil => simp only [hq0]; exact hI
  | cons h t =>
    simp only [hq0]
    have hmem : h ∈ allQ pm := by
      show h ∈ pm.ready_queue ++ pm.waiting_queue ++ pm.running_queue
      rw [hq0]
      exact List.mem_append_right _ (List.mem_cons_self h t)
    refine inv_move (x := h) (y := { h with state := .ready, remaining_time := 5 })
      (g := fun c => { c with state := .ready, remaining_time := 5 })
      (V := (pm.ready_queue ++ pm.waiting_queue) ++ t) hI rfl
      (fun c => rfl) (fun c => rfl) rfl rfl rfl ?_ ?_ ?_ ?_
    · show ((pm.ready_queue ++ pm.waiting_queue) ++ pm.running_queue).Perm _
      rw [hq0]
      exact List.perm_middle
    · exact ((enqueue_by_priority_perm pm.ready_queue _).append_right
        pm.waiting_queue).append_right t
    · show (1 : Nat) ≤ 5
      omega
    · show t.length ≤ 1
      have h1 := hI.hrun1
      rw [hq0] at h1
      simp only [List.length_cons] at h1
      omega

theorem activate_preserve (pm : ProcessManager) (pid : Nat) (hI : Inv pm) :
    Inv (activate_process pm pid).2 := by
  unfold activate_process
  rcases hr : remove_by_pid pm.waiting_queue pid with ⟨o1, wq⟩
  cases o1 with
  | none =>
    simp only [hr]
    have hwq : wq = pm.waiting_queue := by
      rcases remove_by_pid_spec pm.waiting_queue pid with ⟨h1, -⟩ | ⟨x, l₁, l₂, -, -, -, h4⟩
      · rw [h1] at hr; injection hr with h5 h6; exact h6.symm
      · rw [h4] at hr; injection hr with h5 h6; exact absurd h5 (by simp)
    exact inv_fields hI rfl rfl rfl (by rw [hwq]) rfl rfl
  | some pcb =>
    simp only [hr]
    obtain ⟨x, l₁, l₂, h1, h2, h3, h4⟩ :
        ∃ x l₁ l₂, pm.waiting_queue = l₁ ++ x :: l₂ ∧ x.pid = pid ∧
          (∀ y ∈ l₁, y.pid ≠ pid) ∧
          remove_by_pid pm.waiting_queue pid = (some x, l₁ ++ l₂) := by
      rcases remove_by_pid_spec pm.waiting_queue pid with ⟨h1, -⟩ | hx
      · rw [h1] at hr; simp at hr
      · exact hx
    rw [h4] at hr
    injection hr with h5 h6
    have h5' : x = pcb := by injection h5
    subst h5'
    subst h6
    have hxmem : x ∈ allQ pm :=
      mem_allQ_waiting (by rw [h1]; exact List.mem_append_right l₁ (by simp))
    have hxpid : x.pid = pid := h2
    refine inv_move (x := x) (y := { x with state := .ready })
      (g := fun c => { c with state := .ready })
      (V := (pm.ready_queue ++ (l₁ ++ l₂)) ++ pm.running_queue) hI rfl
      (fun c => rfl) (fun c => rfl) (by rw [hxpid]) rfl rfl ?_ ?_ ?_ ?_
    · show ((pm.ready_queue ++ pm.waiting_queue) ++ pm.running_queue).Perm _
      rw [h1]
      exact ((List.perm_middle.append_left pm.ready_queue).append_right
        pm.running_queue).trans (List.perm_middle.append_right pm.running_queue)
    · exact ((enqueue_by_priority_perm pm.ready_queue _).append_right
        (l₁ ++ l₂)).append_right pm.running_queue
    · show 1 ≤ x.remaining_time
      exact hI.hrem x hxmem
    · exact hI.hrun1

theorem schedule_preserve (pm : ProcessManager) (hI : Inv pm) :
    Inv (schedule pm).2 := by
  unfold schedule
  cases hq0 : pm.running_queue with
  | cons h t =>
    simp only [hq0]
    exact inv_fields hI rfl rfl rfl rfl (by rw [hq0]) rfl
  | nil =>
    cases hr0 : pm.ready_queue with
    | nil => simp only [hq0, hr0]; exact hI
    | cons p rest0 =>
      simp only [hq0, hr0]
      have hpmem : p ∈ allQ pm :=
        mem_allQ_ready (by rw [hr0]; exact List.mem_cons_self p rest0)
      refine inv_move (x := p) (y := { p with state := .running })
        (g := fun c => { c with state := .running })
        (V := (rest0 ++ pm.waiting_queue) ++ ([] : List PCB)) hI rfl
        (fun c => rfl) (fun c => rfl) rfl rfl rfl ?_ ?_ ?_ ?_
      · show ((pm.ready_queue ++ pm.waiting_queue) ++ pm.running_queue).Perm _
        rw [hq0, hr0]
        exact List.Perm.refl _
      · exact List.perm_middle
      · show 1 ≤ p.remaining_time
        exact hI.hrem p hpmem
      · show (enqueue ([] : List PCB) _).length ≤ 1
        simp [enqueue]

theorem suspend_preserve (pm : ProcessManager) (pid : Nat) (hI : Inv pm) :
    Inv (suspend_process pm pid).2 := by
  unfold suspend_process
  cases hl : hm_lookup pm.total_chain pid with
  | none => simp only [hl]; exact hI
  | some c =>
    simp only [hl]
    have hcpid : c.pid = pid := hI.hkey _ (hm_lookup_mem hl)
    have hcq : c ∈ allQ pm := hI.hcq _ (hm_lookup_mem hl)
    obtain ⟨hd12, hd3⟩ := queues_disjoint hI
    rcases List.mem_append.mp hcq with h12 | hvn
    · rcases List.mem_append.mp h12 with hvr | hvw
      · -- c sits in the ready queue
        obtain ⟨l₁, l₂, hdq, hrq⟩ :=
          queue_split_of_inv hI hl (fun x hx => mem_allQ_ready hx) hvr
        have hvnn : c ∉ pm.running_queue := by
          intro hmem
          exact hd3 (List.mem_append_left _ (hcpid ▸ List.mem_map_of_mem PCB.pid hvr))
            (hcpid ▸ List.mem_map_of_mem PCB.pid hmem)
        have hrn := queue_none_of_inv hI hl (fun x hx => mem_allQ_running hx) hvnn
        rw [hrq, hrn]
        rw [if_neg (by simp)]
        refine inv_move (x := c) (y := { c with state := .waiting })
          (g := fun x => { x with state := .waiting })
          (V := ((l₁ ++ l₂) ++ pm.waiting_queue) ++ pm.running_queue) hI rfl
          (fun x => rfl) (fun x => rfl) (by rw [hcpid]) rfl rfl ?_ ?_ ?_ ?_
        · show ((pm.ready_queue ++ pm.waiting_queue) ++ pm.running_queue).Perm _
          rw [hdq]
          exact (List.perm_middle.append_right pm.waiting_queue).append_right
            pm.running_queue
        · show (((l₁ ++ l₂) ++ enqueue pm.waiting_queue _) ++ pm.running_queue).Perm _
          exact ((((perm_snoc pm.waiting_queue _).append_left (l₁ ++ l₂)).trans
            List.perm_middle).append_right pm.running_queue)
        · show 1 ≤ c.remaining_time
          exact hI.hrem c hcq
        · exact hI.hrun1
      · -- c sits in the waiting queue: both removals are no-ops, error path
        have hvnr : c ∉ pm.ready_queue := by
          intro hmem
          exact hd12 (hcpid ▸ List.mem_map_of_mem PCB.pid hmem)
            (hcpid ▸ List.mem_map_of_mem PCB.pid hvw)
        have hvnn : c ∉ pm.running_queue := by
          intro hmem
          exact hd3 (List.mem_append_right _ (hcpid ▸ List.mem_map_of_mem PCB.pid hvw))
            (hcpid ▸ List.mem_map_of_mem PCB.pid hmem)
        rw [queue_none_of_inv hI hl (fun x hx => mem_allQ_ready hx) hvnr,
          queue_none_of_inv hI hl (fun x hx => mem_allQ_running hx) hvnn]
        rw [if_pos (by simp)]
        exact inv_fields hI rfl rfl rfl rfl rfl rfl
    · -- c sits in the running queue
      obtain ⟨l₁, l₂, hdq, hrq⟩ :=
        queue_split_of_inv hI hl (fun x hx => mem_allQ_running hx) hvn
      have hvnr : c ∉ pm.ready_queue := by
        intro hmem
        exact hd3 (List.mem_append_left _ (hcpid ▸ List.mem_map_of_mem PCB.pid hmem))
          (hcpid ▸ List.mem_map_of_mem PCB.pid hvn)
      have hrr := queue_none_of_inv hI hl (fun x hx => mem_allQ_ready hx) hvnr
      rw [hrq, hrr]
      rw [if_neg (by simp)]
      refine inv_move (x := c) (y := { c with state := .waiting })
        (g := fun x => { x with state := .waiting })
        (V := (pm.ready_queue ++ pm.waiting_queue) ++ (l₁ ++ l₂)) hI rfl
        (fun x => rfl) (fun x => rfl) (by rw [hcpid]) rfl rfl ?_ ?_ ?_ ?_
      · show ((pm.ready_queue ++ pm.waiting_queue) ++ pm.running_queue).Perm _
        rw [hdq]
        exact (List.perm_middle.append_left
          (pm.ready_queue ++ pm.waiting_queue)).trans List.perm_middle
      · show ((pm.ready_queue ++ enqueue pm.waiting_queue _) ++ (l₁ ++ l₂)).Perm _
        exact ((((perm_snoc pm.waiting_queue _).append_left pm.ready_queue).trans
          List.perm_middle).append_right (l₁ ++ l₂))
      · show 1 ≤ c.remaining_time
        exact hI.hrem c hcq
      · show (l₁ ++ l₂).length ≤ 1
        have h9 := hI.hrun1
        rw [hdq] at h9
        simp only [List.length_append, List.length_cons] at h9 ⊢
        omega

theorem body_preserve (pm : ProcessManager) (hI : Inv pm) :
    Inv (run_cycle_body pm) := by
  unfold run_cycle_body
  cases hq0 : pm.running_queue with
  | nil => simp only [hq0]; exact hI
  | cons h t =>
    simp only [hq0]
    have hmem : h ∈ allQ pm := by
      show h ∈ pm.ready_queue ++ pm.waiting_queue ++ pm.running_queue
      rw [hq0]
      exact List.mem_append_right _ (List.mem_cons_self h t)
    have hhrem : 1 ≤ h.remaining_time := hI.hrem h hmem
    have hrun1 : t.length ≤ 1 := by
      have h1 := hI.hrun1
      rw [hq0] at h1
      simp only [List.length_cons] at h1
      omega
    by_cases hz : h.remaining_time - 1 = 0
    · rw [if_pos hz]
      -- the decremented head expires at once: the net effect is one
      -- time-slice-expired style move of h to the ready queue
      refine inv_move (x := h) (y := { h with state := .ready, remaining_time := 5 })
        (g := fun c => { c with state := .ready, remaining_time := 5 })
        (V := (pm.ready_queue ++ pm.waiting_queue) ++ t) hI rfl
        (fun c => rfl) (fun c => rfl) ?_ rfl rfl ?_ ?_ ?_ ?_
      · show hm_update (hm_update pm.total_chain h.pid
            (fun c => { c with remaining_time := h.remaining_time - 1 })) h.pid
            (fun c => { c with state := .ready, remaining_time := 5 })
          = hm_update pm.total_chain h.pid
            (fun c => { c with state := .ready, remaining_time := 5 })
        rw [hm_update_update]
      · show ((pm.ready_queue ++ pm.waiting_queue) ++ pm.running_queue).Perm _
        rw [hq0]
        exact List.perm_middle
      · exact ((enqueue_by_priority_perm pm.ready_queue _).append_right
          pm.waiting_queue).append_right t
      · show (1 : Nat) ≤ 5
        omega
      · exact hrun1
    · rw [if_neg hz]
      refine inv_move (x := h)
        (y := { h with remaining_time := h.remaining_time - 1 })
        (g := fun c => { c with remaining_time := h.remaining_time - 1 })
        (V := (pm.ready_queue ++ pm.waiting_queue) ++ t) hI rfl
        (fun c => rfl) (fun c => rfl) rfl rfl rfl ?_ ?_ ?_ ?_
      · show ((pm.ready_queue ++ pm.waiting_queue) ++ pm.running_queue).Perm _
        rw [hq0]
        exact List.perm_middle
      · exact List.perm_middle
      · show 1 ≤ h.remaining_time - 1
        omega
      · show ({ h with remaining_time := h.remaining_time - 1 } :: t).length ≤ 1
        have h1 := hI.hrun1
        rw [hq0] at h1
        simp only [List.length_cons] at h1 ⊢
        omega

theorem cycle_preserve (pm : ProcessManager) (hI : Inv pm) :
    Inv (run_one_cycle pm) := by
  unfold run_one_cycle
  by_cases he : pm.running_queue.isEmpty
  · rw [if_pos he]
    have h1 : Inv (schedule pm).2 := schedule_preserve pm hI
    cases hs0 : schedule pm with
    | mk e pm1 =>
      rw [hs0] at h1
      cases e with
      | error err => simp only [hs0]; exact h1
      | ok u => simp only [hs0]; exact body_preserve pm1 h1
  · rw [if_neg he]
    exact body_preserve pm hI

theorem inv_init : Inv ProcessManager.new := by
  have hfl : ProcessManager.new.pcb_pool.free_list
      = [[], [], [], [], [], [], [], [0]] := by decide
  have hmo : ProcessManager.new.pcb_pool.max_order = 7 := by decide
  have hps : ProcessManager.new.pcb_pool.pool_size = 128 := by decide
  have hch : ProcessManager.new.total_chain = [] := rfl
  have hallq : allQ ProcessManager.new = [] := rfl
  have hr : ∀ o < 8, ∀ i ∈ ([[], [], [], [], [], [], [], [0]] :
      List (List Nat)).getD o [], 2 ^ o ∣ i ∧ i + 2 ^ o ≤ 128 := by decide
  have hb : ∀ o < 7, ∀ i ∈ ([[], [], [], [], [], [], [], [0]] :
      List (List Nat)).getD o [],
      (i ^^^ 2 ^ o) ∉ ([[], [], [], [], [], [], [], [0]] :
        List (List Nat)).getD o [] := by decide
  have hc : ∀ s < 128, freeCover 0 ([[], [], [], [], [], [], [], [0]] :
      List (List Nat)) s = 1 := by decide
  refine ⟨⟨?_, ?_, ?_, ?_, ?_⟩, ?_, ?_, ?_, ?_, ?_, ?_, ?_, ?_, ?_, ?_⟩
  · rw [hfl, hmo]; rfl
  · rw [hps, hmo]; decide
  · intro o ho i hi
    rw [hmo] at ho
    rw [hfl] at hi
    rw [hps]
    exact hr o (by omega) i hi
  · intro s hs
    rw [hps] at hs
    rw [hfl, hch]
    have h1 := hc s hs
    simp only [chainCount]
    omega
  · intro o ho i hi
    rw [hmo] at ho
    rw [hfl] at hi ⊢
    exact hb o ho i hi
  · rw [hch]; decide
  · intro e he; rw [hch] at he; simp at he
  · intro e he; rw [hch] at he; simp at he
  · rw [hch]; simp
  · intro p hp; rw [hallq] at hp; simp at hp
  · rw [hallq]; simp
  · intro e he; rw [hch] at he; simp at he
  · intro p hp; rw [hallq] at hp; simp at hp
  · intro e he; rw [hch] at he; simp at he
  · decide

/-- The manager invariant holds in every reachable state. -/
theorem inv_reachable {pm : ProcessManager} (h : Reachable pm) : Inv pm := by
  induction h with
  | init => exact inv_init
  | create pm pr _ ih => exact create_preserve pm pr ih
  | terminate pm pid _ ih => exact terminate_preserve pm pid ih
  | tse pm _ ih => exact tse_preserve pm ih
  | suspend pm pid _ ih => exact suspend_preserve pm pid ih
  | activate pm pid _ ih => exact activate_preserve pm pid ih
  | sched pm _ ih => exact schedule_preserve pm ih
  | cycle pm _ ih => exact cycle_preserve pm ih

/-! ### Counting the free slots: the sum identity behind claim C2 -/

theorem sum_candInd {i o N : Nat} (h : i + 2 ^ o ≤ N) :
    (∑ s ∈ Finset.range N, candInd i o s) = 2 ^ o := by
  have h1 : ∀ s, candInd i o s = if s ∈ Finset.Ico i (i + 2 ^ o) then 1 else 0 := by
    intro s
    simp [candInd, Finset.mem_Ico]
  simp only [h1]
  rw [Finset.sum_ite_mem]
  have h2 : Finset.range N ∩ Finset.Ico i (i + 2 ^ o) = Finset.Ico i (i + 2 ^ o) := by
    ext s
    simp only [Finset.mem_inter, Finset.mem_range, Finset.mem_Ico]
    omega
  rw [h2, Finset.sum_const, Nat.card_Ico]
  simp

theorem sum_coverList {o : Nat} {l : List Nat} {N : Nat}
    (h : ∀ i ∈ l, i + 2 ^ o ≤ N) :
    (∑ s ∈ Finset.range N, coverList o l s) = l.length * 2 ^ o := by
  induction l with
  | nil => simp [coverList]
  | cons a t ih =>
    simp only [coverList_cons]
    rw [Finset.sum_add_distrib, sum_candInd (h a (by simp)),
      ih (fun i hi => h i (by simp [hi]))]
    simp only [List.length_cons]
    ring

theorem sum_freeCover {fl : List (List Nat)} {N : Nat} :
    ∀ k, (∀ o, o < fl.length → ∀ i ∈ fl.getD o [], i + 2 ^ (k + o) ≤ N) →
    (∑ s ∈ Finset.range N, freeCover k fl s) = freeTotal k fl := by
  induction fl with
  | nil => intro k _; simp [freeCover, freeTotal]
  | cons x rest ih =>
    intro k h
    simp only [freeCover, freeTotal]
    rw [Finset.sum_add_distrib, sum_coverList, ih (k + 1)]
    · intro o ho i hi
      have h2 := h (o + 1) (by simpa using Nat.succ_lt_succ ho) i (by simpa using hi)
      have h3 : k + (o + 1) = (k + 1) + o := by omega
      rw [← h3]
      exact h2
    · intro i hi
      have h2 := h 0 (by simp) i (by simpa using hi)
      simpa using h2

theorem sum_chainCount {chain : List (Nat × PCB)} {N : Nat}
    (h : ∀ e ∈ chain, e.2.pool_index < N) :
    (∑ s ∈ Finset.range N, chainCount chain s) = chain.length := by
  induction chain with
  | nil => simp [chainCount]
  | cons a t ih =>
    simp only [chainCount]
    rw [Finset.sum_add_distrib, ih (fun e he => h e (by simp [he]))]
    have h1 : (∑ s ∈ Finset.range N, if a.2.pool_index = s then 1 else 0) = 1 := by
      rw [Finset.sum_ite_eq]
      rw [if_pos (Finset.mem_range.mpr (h a (by simp)))]
    rw [h1]
    simp only [List.length_cons]
    omega

/-- For any invariant state, the used count plus the weighted free-list
lengths equals the pool size. -/
theorem inv_sum {pm : ProcessManager} (hI : Inv pm) :
    pm.pcb_pool.used_count + (freeTotal 0 pm.pcb_pool.free_list : Int)
      = (pm.pcb_pool.pool_size : Int) := by
  have hA := hI.halloc
  have h1 : (∑ s ∈ Finset.range pm.pcb_pool.pool_size,
      (freeCover 0 pm.pcb_pool.free_list s + chainCount pm.total_chain s))
      = pm.pcb_pool.pool_size := by
    rw [Finset.sum_congr rfl (fun s hs => hA.hcover s (Finset.mem_range.mp hs))]
    simp
  rw [Finset.sum_add_distrib] at h1
  have h2 : (∑ s ∈ Finset.range pm.pcb_pool.pool_size,
      freeCover 0 pm.pcb_pool.free_list s) = freeTotal 0 pm.pcb_pool.free_list := by
    apply sum_freeCover 0
    intro o ho i hi
    have h3 := hA.hrange o (by rw [hA.hlen] at ho; omega) i hi
    simpa using h3.2
  have h4 : (∑ s ∈ Finset.range pm.pcb_pool.pool_size,
      chainCount pm.total_chain s) = pm.total_chain.length :=
    sum_chainCount hI.hpidx
  rw [h2, h4] at h1
  have h5 := hI.hused
  omega

theorem getLast?_ne_nil {α : Type} {l : List α} (h : l ≠ []) :
    ∃ a, l.getLast? = some a := by
  induction l using List.reverseRecOn with
  | nil => exact absurd rfl h
  | append_singleton ys y _ => exact ⟨y, List.getLast?_concat ys⟩

theorem findFreeOrder_none_intro (fl : List (List Nat)) (mo : Nat) :
    ∀ d o, mo + 1 - o ≤ d → (∀ j, o ≤ j → j ≤ mo → fl.getD j [] = []) →
      findFreeOrder fl mo o = none := by
  intro d
  induction d with
  | zero =>
    intro o hd _
    rw [findFreeOrder.eq_def, if_neg (by omega)]
  | succ d ih =>
    intro o hd h
    rw [findFreeOrder.eq_def]
    by_cases ho : o ≤ mo
    · rw [if_pos ho, if_pos (h o (le_refl o) ho)]
      exact ih (o + 1) (by omega) (fun j h1 h2 => h j (by omega) h2)
    · rw [if_neg ho]

/-! ### Sortedness of the ready queue -/

/-- Sorted by descending priority (the ready-queue discipline). -/
def sortedByPriority (q : List PCB) : Prop :=
  q.Pairwise (fun a b => b.priority ≤ a.priority)

theorem dropWhile_lt_of_sorted (pcb : PCB) :
    ∀ q : List PCB, sortedByPriority q →
      ∀ y ∈ q.dropWhile (fun x => pcb.priority ≤ x.priority),
        y.priority < pcb.priority := by
  intro q
  induction q with
  | nil => intro _ y hy; simp at hy
  | cons a t ih =>
    intro hs y hy
    rw [List.dropWhile_cons] at hy
    rw [sortedByPriority, List.pairwise_cons] at hs
    by_cases h : pcb.priority ≤ a.priority
    · rw [if_pos (decide_eq_true h)] at hy
      exact ih hs.2 y hy
    · rw [if_neg (by simp [h])] at hy
      rcases List.mem_cons.mp hy with h1 | h1
      · subst h1; omega
      · have := hs.1 y h1
        omega

theorem takeWhile_filter_of_sorted (pcb : PCB) :
    ∀ q : List PCB, sortedByPriority q →
      q.takeWhile (fun x => pcb.priority ≤ x.priority)
          = q.filter (fun x => pcb.priority ≤ x.priority)
      ∧ q.dropWhile (fun x => pcb.priority ≤ x.priority)
          = q.filter (fun x => x.priority < pcb.priority) := by
  intro q
  induction q with
  | nil => intro _; exact ⟨rfl, rfl⟩
  | cons a t ih =>
    intro hs
    rw [sortedByPriority, List.pairwise_cons] at hs
    obtain ⟨ih1, ih2⟩ := ih hs.2
    by_cases h : pcb.priority ≤ a.priority
    · constructor
      · rw [List.takeWhile_cons, List.filter_cons, if_pos (decide_eq_true h),
          if_pos (decide_eq_true h), ih1]
      · rw [List.dropWhile_cons, List.filter_cons, if_pos (decide_eq_true h),
          if_neg (by simp only [decide_eq_true_eq]; omega), ih2]
    · constructor
      · rw [List.takeWhile_cons, List.filter_cons, if_neg (by simp [h]),
          if_neg (by simp [h]), eq_comm, List.filter_eq_nil_iff]
        intro y hy
        have := hs.1 y hy
        simp only [decide_eq_true_eq]
        omega
      · rw [List.dropWhile_cons, List.filter_cons, if_neg (by simp [h]),
          if_pos (decide_eq_true (by omega))]
        have h2 : t.filter (fun x => decide (x.priority < pcb.priority)) = t := by
          rw [List.filter_eq_self]
          intro y hy
          have := hs.1 y hy
          simp only [decide_eq_true_eq]
          omega
        rw [h2]

theorem ebp_sorted (q : List PCB) (pcb : PCB) (hs : sortedByPriority q) :
    sortedByPriority (enqueue_by_priority q pcb) := by
  rw [enqueue_by_priority_eq]
  rw [sortedByPriority, List.pairwise_append]
  refine ⟨?_, ?_, ?_⟩
  · exact hs.sublist (List.takeWhile_sublist _)
  · rw [List.pairwise_cons]
    refine ⟨?_, hs.sublist (List.dropWhile_sublist _)⟩
    intro y hy
    have := dropWhile_lt_of_sorted pcb q hs y hy
    omega
  · intro a ha b hb
    have h1 : pcb.priority ≤ a.priority := by
      have := List.mem_takeWhile_imp ha
      simpa using this
    rcases List.mem_cons.mp hb with h2 | h2
    · subst h2; exact h1
    · have := dropWhile_lt_of_sorted pcb q hs b h2
      omega

/-! ## The ten claims -/

/-- C1: BuddySystem::allocate always requests an order-0 block.  It
returns none exactly when every free list up to max_order is empty.
Otherwise, with k the first non-empty order and i the last element of
the order-k list (the element Vec::pop removes), it returns slot i,
removes i from order k, pushes exactly one buddy i + 2^o onto each
order o below k, leaves all higher orders untouched, and raises
used_count by one. -/
theorem C1_allocate_spec (b : BuddySystem)
    (hlen : b.free_list.length = b.max_order + 1) :
    (b.allocate = none ↔ ∀ j, j ≤ b.max_order → b.free_list.getD j [] = []) ∧
    ∀ k l i, k ≤ b.max_order → (∀ j, j < k → b.free_list.getD j [] = []) →
      b.free_list.getD k [] = l ++ [i] →
      ∃ b', b.allocate = some (i, b') ∧
        b'.max_order = b.max_order ∧ b'.pool_size = b.pool_size ∧
        b'.pool = b.pool ∧ b'.used_count = b.used_count + 1 ∧
        b'.free_list.length = b.free_list.length ∧
        b'.free_list.getD k [] = l ∧
        (∀ o, o < k → b'.free_list.getD o [] = b.free_list.getD o [] ++ [i + 2 ^ o]) ∧
        (∀ o, k < o → b'.free_list.getD o [] = b.free_list.getD o []) := by
  constructor
  · constructor
    · intro h
      unfold BuddySystem.allocate at h
      split at h
      next hf =>
        intro j hj
        exact findFreeOrder_none_aux b.free_list b.max_order (b.max_order + 1) 0
          (by omega) hf j (Nat.zero_le j) hj
      next k hf =>
        obtain ⟨_, _, h3, _⟩ := findFreeOrder_some_aux b.free_list b.max_order
          (b.max_order + 1) 0 k (by omega) hf
        obtain ⟨a, ha⟩ := getLast?_ne_nil h3
        rw [ha] at h
        exact absurd h (by simp)
    · intro h
      have hfind : findFreeOrder b.free_list b.max_order 0 = none :=
        findFreeOrder_none_intro b.free_list b.max_order (b.max_order + 1) 0
          (by omega) (fun j _ hj => h j hj)
      unfold BuddySystem.allocate
      rw [hfind]
  · intro k l i hk hbelow hlk
    have hne : b.free_list.getD k [] ≠ [] := by rw [hlk]; simp
    have hfind : findFreeOrder b.free_list b.max_order 0 = some k :=
      findFreeOrder_intro_aux b.free_list b.max_order (b.max_order + 1) 0 k
        (by omega) (Nat.zero_le k) hk hne (fun j _ hj => hbelow j hj)
    have hkl : k < b.free_list.length := by omega
    have hkl2 : k ≤ (b.free_list.set k l).length := by
      rw [List.length_set]; omega
    refine ⟨{ b with
        free_list := splitLoop (b.free_list.set k l) i k
        used_count := b.used_count + 1 }, ?_, rfl, rfl, rfl, rfl, ?_, ?_, ?_, ?_⟩
    · unfold BuddySystem.allocate
      rw [hfind]
      dsimp only
      rw [hlk, List.getLast?_concat]
      dsimp only
      rw [List.dropLast_concat]
    · show (splitLoop (b.free_list.set k l) i k).length = b.free_list.length
      rw [splitLoop_length, List.length_set]
    · show (splitLoop (b.free_list.set k l) i k).getD k [] = l
      rw [splitLoop_getD_ge i k _ k (le_refl k), getD_set_self hkl]
    · intro o ho
      show (splitLoop (b.free_list.set k l) i k).getD o []
        = b.free_list.getD o [] ++ [i + 2 ^ o]
      rw [splitLoop_getD_lt i k _ o ho hkl2, getD_set_ne (by omega)]
    · intro o ho
      show (splitLoop (b.free_list.set k l) i k).getD o [] = b.free_list.getD o []
      rw [splitLoop_getD_ge i k _ o (by omega), getD_set_ne (by omega)]

theorem C1_allocate_spec_witness :
    ∃ b', (BuddySystem.new 4).allocate = some (0, b') ∧
      b'.max_order = (BuddySystem.new 4).max_order ∧
      b'.pool_size = (BuddySystem.new 4).pool_size ∧
      b'.pool = (BuddySystem.new 4).pool ∧
      b'.used_count = (BuddySystem.new 4).used_count + 1 ∧
      b'.free_list.length = (BuddySystem.new 4).free_list.length ∧
      b'.free_list.getD 2 [] = [] ∧
      (∀ o, o < 2 → b'.free_list.getD o []
        = (BuddySystem.new 4).free_list.getD o [] ++ [0 + 2 ^ o]) ∧
      (∀ o, 2 < o → b'.free_list.getD o []
        = (BuddySystem.new 4).free_list.getD o []) :=
  (C1_allocate_spec (BuddySystem.new 4) (by decide)).2 2 [] 0
    (by decide) (by decide) (by decide)

/-- C2: in every manager-reachable state, used_count plus the weighted
free-list total (length of the order-o list times 2^o, summed over all
orders) equals pool_size; in particular used_count + get_free_count
= pool_size. -/
theorem C2_used_plus_free (pm : ProcessManager) (h : Reachable pm) :
    pm.pcb_pool.used_count + (freeTotal 0 pm.pcb_pool.free_list : Int)
      = (pm.pcb_pool.pool_size : Int) ∧
    pm.pcb_pool.used_count + pm.pcb_pool.get_free_count
      = (pm.pcb_pool.pool_size : Int) := by
  refine ⟨inv_sum (inv_reachable h), ?_⟩
  unfold BuddySystem.get_free_count
  ring

theorem C2_used_plus_free_witness :
    (create_process ProcessManager.new 5).2.pcb_pool.used_count
        + (freeTotal 0 (create_process ProcessManager.new 5).2.pcb_pool.free_list : Int)
      = ((create_process ProcessManager.new 5).2.pcb_pool.pool_size : Int) ∧
    (create_process ProcessManager.new 5).2.pcb_pool.used_count
        + (create_process ProcessManager.new 5).2.pcb_pool.get_free_count
      = ((create_process ProcessManager.new 5).2.pcb_pool.pool_size : Int) :=
  C2_used_plus_free (create_process ProcessManager.new 5).2
    (Reachable.create ProcessManager.new 5 Reachable.init)

/-- C3: in every reachable manager state, every pid bound in the
directory (the total chain) occurs in exactly one of the ready, waiting
and running queues — its occurrence count over the three queues is one —
and any queue entry carrying that pid has the same state field as the
directory copy. -/
theorem C3_directory_queues (pm : ProcessManager) (h : Reachable pm)
    (pid : Nat) (pcb : PCB) (hl : hm_lookup pm.total_chain pid = some pcb) :
    (pm.ready_queue.map PCB.pid).count pid
        + (pm.waiting_queue.map PCB.pid).count pid
        + (pm.running_queue.map PCB.pid).count pid = 1 ∧
    ∀ q ∈ allQ pm, q.pid = pid → q.state = pcb.state := by
  have hI := inv_reachable h
  have hmem : (pid, pcb) ∈ pm.total_chain := hm_lookup_mem hl
  have hqm : pcb ∈ allQ pm := hI.hcq (pid, pcb) hmem
  have hpid : pcb.pid = pid := hI.hkey (pid, pcb) hmem
  constructor
  · have hpm : pid ∈ (allQ pm).map PCB.pid := by
      rw [← hpid]
      exact List.mem_map_of_mem PCB.pid hqm
    have hc1 : ((allQ pm).map PCB.pid).count pid = 1 :=
      List.count_eq_one_of_mem hI.hqn hpm
    rw [allQ, List.map_append, List.map_append, List.count_append,
      List.count_append] at hc1
    omega
  · intro q hq hqpid
    have h1 : hm_lookup pm.total_chain q.pid = some q := hI.hq q hq
    rw [hqpid, hl] at h1
    rw [Option.some.injEq] at h1
    rw [h1]

/-- The allocator state after one allocation from the fresh 128-slot
pool, written out: slot 0 is taken and each order below the top holds
exactly the buddy split off at that order. -/
def BX128 : BuddySystem :=
  { pool := List.replicate 128 none
    free_list := [[1], [2], [4], [8], [16], [32], [64], []]
    max_order := 7
    pool_size := 128
    used_count := 1 }

theorem allocate_new128 : ProcessManager.new.pcb_pool.allocate = some (0, BX128) := by
  have hfind : findFreeOrder ProcessManager.new.pcb_pool.free_list
      ProcessManager.new.pcb_pool.max_order 0 = some 7 :=
    findFreeOrder_intro_aux _ _ 8 0 7 (by decide) (by decide) (by decide) (by decide)
      (fun j _ hj =>
        (by decide : ∀ j, j < 7 →
          ProcessManager.new.pcb_pool.free_list.getD j [] = []) j hj)
  unfold BuddySystem.allocate
  rw [hfind]
  rfl

theorem create1_lookup :
    hm_lookup (create_process ProcessManager.new 5).2.total_chain 1
      = some ⟨1, 5, .ready, 5, 0⟩ := by
  unfold create_process
  rw [allocate_new128]
  rfl

theorem C3_directory_queues_witness :
    ((create_process ProcessManager.new 5).2.ready_queue.map PCB.pid).count 1
        + ((create_process ProcessManager.new 5).2.waiting_queue.map PCB.pid).count 1
        + ((create_process ProcessManager.new 5).2.running_queue.map PCB.pid).count 1 = 1 ∧
    ∀ q ∈ allQ (create_process ProcessManager.new 5).2, q.pid = 1 →
      q.state = (⟨1, 5, .ready, 5, 0⟩ : PCB).state :=
  C3_directory_queues (create_process ProcessManager.new 5).2
    (Reachable.create ProcessManager.new 5 Reachable.init)
    1 ⟨1, 5, .ready, 5, 0⟩ create1_lookup

/-- C4: from any reachable manager state, a successful allocate returning
slot s followed immediately by deallocate of s restores the free lists
exactly (the merge reverses the split) and restores used_count. -/
theorem C4_alloc_dealloc_roundtrip (pm : ProcessManager) (h : Reachable pm)
    (s : Nat) (b' : BuddySystem) (hall : pm.pcb_pool.allocate = some (s, b')) :
    (b'.deallocate s).free_list = pm.pcb_pool.free_list ∧
    (b'.deallocate s).used_count = pm.pcb_pool.used_count :=
  allocate_deallocate_free_list (inv_reachable h).halloc hall

theorem C4_alloc_dealloc_roundtrip_witness :
    (BX128.deallocate 0).free_list = ProcessManager.new.pcb_pool.free_list ∧
    (BX128.deallocate 0).used_count = ProcessManager.new.pcb_pool.used_count :=
  C4_alloc_dealloc_roundtrip ProcessManager.new Reachable.init 0 BX128 allocate_new128

theorem merge1_new128 :
    merge_and_free (BuddySystem.new 128).max_order (BuddySystem.new 128).free_list 1 0
      = [[1], [], [], [], [], [], [], [0]] := by
  rw [merge_and_free.eq_def, dif_neg (by decide)]
  dsimp only
  rw [if_neg (by decide), if_neg (by decide)]
  decide

theorem dealloc1_new128 :
    (BuddySystem.new 128).deallocate 1
      = { pool := (List.replicate 128 (none : Option PCB)).set 1 none
          free_list := [[1], [], [], [], [], [], [], [0]]
          max_order := 7
          pool_size := 128
          used_count := -1 } := by
  unfold BuddySystem.deallocate
  rw [if_neg (by decide), merge1_new128]
  decide

/-- C5 counterexample: deallocate on an already-free slot is not safe.
In the fresh 128-slot pool every slot is free (covered once, by the top
block) and used_count is 0; deallocating the free slot 1 pushes 1 onto
the order-0 free list without removing any other cover, so slot 1 is now
covered by two different free blocks (the order-0 block 1 and the top
order-7 block 0) — the free lists no longer partition the free slots —
and used_count is decremented below zero, the underflow that panics in a
Rust debug build. -/
theorem C5_double_free_counterexample :
    freeCover 0 (BuddySystem.new 128).free_list 1 = 1 ∧
    (BuddySystem.new 128).used_count = 0 ∧
    1 ∈ ((BuddySystem.new 128).deallocate 1).free_list.getD 0 [] ∧
    0 ∈ ((BuddySystem.new 128).deallocate 1).free_list.getD 7 [] ∧
    freeCover 0 ((BuddySystem.new 128).deallocate 1).free_list 1 = 2 ∧
    ((BuddySystem.new 128).deallocate 1).used_count = -1 := by
  rw [dealloc1_new128]
  decide

/-- C5 (amended): what deallocate actually guarantees on an already-free
slot.  If the slot is an isolated order-0 free block (its order-0 buddy
is not free at order 0), the second deallocate leaves the free lists
unchanged — the duplicate push is suppressed by the contains guard — but
it still decrements used_count, which is now one below the true count
(an underflow panic when used_count was already 0 in Rust).  When the
buddy is free the merge loop runs and the free lists are corrupted, as
the counterexample shows. -/
theorem C5_double_free_amended (b : BuddySystem) (i : Nat)
    (hi : i < b.pool_size) (hmem : i ∈ b.free_list.getD 0 [])
    (hbud : i ^^^ 2 ^ 0 ∉ b.free_list.getD 0 []) :
    (b.deallocate i).free_list = b.free_list ∧
    (b.deallocate i).used_count = b.used_count - 1 := by
  unfold BuddySystem.deallocate
  rw [if_neg (by omega)]
  refine ⟨?_, rfl⟩
  show merge_and_free b.max_order b.free_list i 0 = b.free_list
  rw [merge_and_free.eq_def]
  by_cases h : b.max_order ≤ 0
  · rw [dif_pos h, if_pos hmem]
  · rw [dif_neg h]
    dsimp only
    rw [if_neg hbud, if_pos hmem]

theorem C5_double_free_amended_witness :
    (((BuddySystem.new 128).deallocate 1).deallocate 1).free_list
        = ((BuddySystem.new 128).deallocate 1).free_list ∧
    (((BuddySystem.new 128).deallocate 1).deallocate 1).used_count
        = ((BuddySystem.new 128).deallocate 1).used_count - 1 :=
  C5_double_free_amended ((BuddySystem.new 128).deallocate 1) 1
    (by rw [dealloc1_new128]; decide)
    (by rw [dealloc1_new128]; decide)
    (by rw [dealloc1_new128]; decide)

/-- C6: enqueue_by_priority inserts the incoming PCB after exactly the
entries with priority at least its own (head placement when the queue is
empty or the incoming priority strictly exceeds the head's is the
takeWhile prefix being empty), so a queue sorted by descending priority
stays sorted and ties keep insertion order; inserting priorities
[3,1,4,1,5] (pids 1..5) into an empty queue yields priority order
[5,4,3,1,1] with the two priority-1 entries in insertion order
(pid 2 before pid 4). -/
theorem C6_enqueue_by_priority (q : List PCB) (pcb : PCB)
    (hs : sortedByPriority q) :
    enqueue_by_priority q pcb
      = q.takeWhile (fun x => pcb.priority ≤ x.priority) ++ pcb ::
        q.dropWhile (fun x => pcb.priority ≤ x.priority) ∧
    q.takeWhile (fun x => pcb.priority ≤ x.priority)
      = q.filter (fun x => pcb.priority ≤ x.priority) ∧
    sortedByPriority (enqueue_by_priority q pcb) ∧
    (enqueue_by_priority q pcb).Perm (pcb :: q) ∧
    ((enqueue_by_priority (enqueue_by_priority (enqueue_by_priority
        (enqueue_by_priority (enqueue_by_priority []
          ⟨1, 3, .ready, 5, 0⟩) ⟨2, 1, .ready, 5, 1⟩) ⟨3, 4, .ready, 5, 2⟩)
          ⟨4, 1, .ready, 5, 3⟩) ⟨5, 5, .ready, 5, 4⟩).map
        (fun p => (p.pid, p.priority))
      = [(5, 5), (3, 4), (1, 3), (2, 1), (4, 1)]) :=
  ⟨enqueue_by_priority_eq q pcb,
   (takeWhile_filter_of_sorted pcb q hs).1,
   ebp_sorted q pcb hs,
   enqueue_by_priority_perm q pcb,
   by decide⟩

theorem C6_enqueue_by_priority_witness :
    enqueue_by_priority [] (⟨1, 3, .ready, 5, 0⟩ : PCB)
      = ([] : List PCB).takeWhile
          (fun x => (⟨1, 3, .ready, 5, 0⟩ : PCB).priority ≤ x.priority)
        ++ (⟨1, 3, .ready, 5, 0⟩ : PCB) ::
        ([] : List PCB).dropWhile
          (fun x => (⟨1, 3, .ready, 5, 0⟩ : PCB).priority ≤ x.priority) ∧
    ([] : List PCB).takeWhile
        (fun x => (⟨1, 3, .ready, 5, 0⟩ : PCB).priority ≤ x.priority)
      = ([] : List PCB).filter
          (fun x => (⟨1, 3, .ready, 5, 0⟩ : PCB).priority ≤ x.priority) ∧
    sortedByPriority (enqueue_by_priority [] ⟨1, 3, .ready, 5, 0⟩) ∧
    (enqueue_by_priority [] (⟨1, 3, .ready, 5, 0⟩ : PCB)).Perm
      [⟨1, 3, .ready, 5, 0⟩] ∧
    ((enqueue_by_priority (enqueue_by_priority (enqueue_by_priority
        (enqueue_by_priority (enqueue_by_priority []
          ⟨1, 3, .ready, 5, 0⟩) ⟨2, 1, .ready, 5, 1⟩) ⟨3, 4, .ready, 5, 2⟩)
          ⟨4, 1, .ready, 5, 3⟩) ⟨5, 5, .ready, 5, 4⟩).map
        (fun p => (p.pid, p.priority))
      = [(5, 5), (3, 4), (1, 3), (2, 1), (4, 1)]) :=
  C6_enqueue_by_priority [] ⟨1, 3, .ready, 5, 0⟩ List.Pairwise.nil

theorem remove_by_pid_fst_none {q : List PCB} {pid : Nat}
    (h : (remove_by_pid q pid).1 = none) : (remove_by_pid q pid).2 = q := by
  rcases remove_by_pid_spec q pid with ⟨he, _⟩ | ⟨x, l₁, l₂, _, _, _, he⟩
  · rw [he]
  · rw [he] at h
    simp at h

/-- C7: every manager primitive that returns an error leaves the whole
manager state (directory, queues, allocator, scheduler, pid counter)
exactly as it was: the state returned with the error equals the input
state.  For suspend_process and activate_process this relies on
remove_by_pid returning the queue unchanged when the pid is absent. -/
theorem C7_error_no_mutation :
    (∀ pm pr e, (create_process pm pr).1 = .error e →
      (create_process pm pr).2 = pm) ∧
    (∀ pm pid e, (terminate_process pm pid).1 = .error e →
      (terminate_process pm pid).2 = pm) ∧
    (∀ pm e, (time_slice_expired pm).1 = .error e →
      (time_slice_expired pm).2 = pm) ∧
    (∀ pm pid e, (suspend_process pm pid).1 = .error e →
      (suspend_process pm pid).2 = pm) ∧
    (∀ pm pid e, (activate_process pm pid).1 = .error e →
      (activate_process pm pid).2 = pm) ∧
    (∀ pm e, (schedule pm).1 = .error e → (schedule pm).2 = pm) := by
  refine ⟨?_, ?_, ?_, ?_, ?_, ?_⟩
  · intro pm pr e h
    unfold create_process at h ⊢
    cases hall : pm.pcb_pool.allocate with
    | none => rfl
    | some v =>
      obtain ⟨i, b2⟩ := v
      rw [hall] at h
      simp at h
  · intro pm pid e h
    unfold terminate_process at h ⊢
    cases hr : hm_remove pm.total_chain pid with
    | mk o c =>
      cases o with
      | none => rfl
      | some v => rw [hr] at h; simp at h
  · intro pm e h
    unfold time_slice_expired at h ⊢
    cases hq : pm.running_queue with
    | nil => rfl
    | cons a t => rw [hq] at h; simp at h
  · intro pm pid e h
    unfold suspend_process at h ⊢
    cases hl : hm_lookup pm.total_chain pid with
    | none => rfl
    | some c =>
      rw [hl] at h
      dsimp only at h ⊢
      by_cases hcond : (remove_by_pid pm.ready_queue pid).1.isNone
          ∧ (remove_by_pid pm.running_queue pid).1.isNone
      · rw [if_pos hcond]
        have h1 : (remove_by_pid pm.ready_queue pid).2 = pm.ready_queue :=
          remove_by_pid_fst_none (Option.isNone_iff_eq_none.mp hcond.1)
        have h2 : (remove_by_pid pm.running_queue pid).2 = pm.running_queue :=
          remove_by_pid_fst_none (Option.isNone_iff_eq_none.mp hcond.2)
        rw [h1, h2]
      · rw [if_neg hcond] at h
        simp at h
  · intro pm pid e h
    unfold activate_process at h ⊢
    cases hr : remove_by_pid pm.waiting_queue pid with
    | mk o w =>
      cases o with
      | none =>
        have h1 : (remove_by_pid pm.waiting_queue pid).2 = pm.waiting_queue :=
          remove_by_pid_fst_none (by rw [hr])
        rw [hr] at h1
        dsimp only at h1 ⊢
        rw [h1]
      | some v => rw [hr] at h; simp at h
  · intro pm e h
    unfold schedule at h ⊢
    cases hq : pm.running_queue with
    | nil =>
      cases hr : pm.ready_queue with
      | nil => rfl
      | cons p rest => rw [hq, hr] at h; simp at h
    | cons a t => rw [hq] at h; simp at h

theorem C7_error_no_mutation_witness :
    (suspend_process ProcessManager.new 1).2 = ProcessManager.new ∧
    (schedule ProcessManager.new).2 = ProcessManager.new :=
  ⟨C7_error_no_mutation.2.2.2.1 ProcessManager.new 1 (.noSuchProcess 1) rfl,
   C7_error_no_mutation.2.2.2.2.2 ProcessManager.new .readyQueueEmpty rfl⟩

/-- A manager state with ready queue [(pid 1, priority 5), (pid 2,
priority 3)] and nothing running or waiting — the state the two creates
of the C8 scenario produce. -/
def pmTwo : ProcessManager :=
  { pcb_pool :=
      { pool := ((List.replicate 128 (none : Option PCB)).set 0
          (some ⟨1, 5, .ready, 5, 0⟩)).set 1 (some ⟨2, 3, .ready, 5, 1⟩)
        free_list := [[], [2], [4], [8], [16], [32], [64], []]
        max_order := 7
        pool_size := 128
        used_count := 2 }
    total_chain := [(2, ⟨2, 3, .ready, 5, 1⟩), (1, ⟨1, 5, .ready, 5, 0⟩)]
    ready_queue := [⟨1, 5, .ready, 5, 0⟩, ⟨2, 3, .ready, 5, 1⟩]
    waiting_queue := []
    running_queue := []
    scheduler := ⟨0, 0, 0⟩
    next_pid := 3 }

/-- C8: schedule with empty running and empty ready queues fails with
ReadyQueueEmpty and changes nothing; with empty running and ready head p
it dequeues p, sets it Running, mirrors the state into the directory,
makes p the sole running process, records one switch and one execution
tick; with a non-empty running queue it only records an execution tick.
On the scenario state (ready pids 1 and 2 at priorities 5 and 3, nothing
running) it moves pid 1 to Running, sets the switch count to 1 and
leaves pid 2 at the ready head. -/
theorem C8_schedule (pm : ProcessManager) :
    (pm.running_queue = [] → pm.ready_queue = [] →
      schedule pm = (.error .readyQueueEmpty, pm)) ∧
    (∀ p rest, pm.running_queue = [] → pm.ready_queue = p :: rest →
      schedule pm = (.ok (),
        { pm with
          ready_queue := rest
          total_chain := hm_update pm.total_chain p.pid
            (fun c => { c with state := .running })
          running_queue := [{ p with state := .running }]
          scheduler := pm.scheduler.record_switch.execute_process })) ∧
    (∀ h t, pm.running_queue = h :: t →
      schedule pm = (.ok (),
        { pm with scheduler := pm.scheduler.execute_process })) ∧
    ((schedule pmTwo).2.running_queue.map (fun p => (p.pid, p.state))
        = [(1, .running)] ∧
      (schedule pmTwo).2.scheduler.total_switches = 1 ∧
      (schedule pmTwo).2.ready_queue.map PCB.pid = [2] ∧
      hm_lookup (schedule pmTwo).2.total_chain 1
        = some ⟨1, 5, .running, 5, 0⟩) := by
  refine ⟨?_, ?_, ?_, by decide⟩
  · intro h1 h2
    unfold schedule
    rw [h1, h2]
  · intro p rest h1 h2
    unfold schedule
    rw [h1, h2]
    rfl
  · intro h t h1
    unfold schedule
    rw [h1]

theorem C8_schedule_witness :
    schedule pmTwo = (.ok (),
      { pmTwo with
        ready_queue := [⟨2, 3, .ready, 5, 1⟩]
        total_chain := hm_update pmTwo.total_chain
          (⟨1, 5, .ready, 5, 0⟩ : PCB).pid
          (fun c => { c with state := .running })
        running_queue := [{ (⟨1, 5, .ready, 5, 0⟩ : PCB) with state := .running }]
        scheduler := pmTwo.scheduler.record_switch.execute_process }) :=
  (C8_schedule pmTwo).2.1 ⟨1, 5, .ready, 5, 0⟩ [⟨2, 3, .ready, 5, 1⟩] rfl rfl

theorem cycle_dec (pm : ProcessManager) (h : PCB) (t : List PCB)
    (hr : pm.running_queue = h :: t) (h2 : 2 ≤ h.remaining_time) :
    run_one_cycle pm
      = { pm with
          running_queue := { h with remaining_time := h.remaining_time - 1 } :: t
          total_chain := hm_update pm.total_chain h.pid
            (fun c => { c with remaining_time := h.remaining_time - 1 }) } := by
  unfold run_one_cycle
  rw [hr, if_neg (by simp)]
  unfold run_cycle_body
  rw [hr]
  dsimp only
  rw [if_neg (by omega)]

theorem cycle_exp (pm : ProcessManager) (h : PCB) (t : List PCB)
    (hr : pm.running_queue = h :: t) (h1 : h.remaining_time = 1) :
    run_one_cycle pm
      = { pm with
          running_queue := t
          ready_queue := enqueue_by_priority pm.ready_queue
            { h with state := .ready, remaining_time := 5 }
          total_chain := hm_update pm.total_chain h.pid
            (fun c => { c with state := .ready, remaining_time := 5 })
          scheduler := pm.scheduler.record_switch } := by
  unfold run_one_cycle
  rw [hr, if_neg (by simp)]
  unfold run_cycle_body
  rw [hr]
  dsimp only
  rw [if_pos (by omega)]
  unfold time_slice_expired
  dsimp only
  rw [hm_update_update]

theorem cycle_iterate :
    ∀ r pm (h : PCB), pm.running_queue = [h] → h.remaining_time = r → 1 ≤ r →
      run_one_cycle^[r] pm
        = { pm with
            running_queue := []
            ready_queue := enqueue_by_priority pm.ready_queue
              { h with state := .ready, remaining_time := 5 }
            total_chain := hm_update pm.total_chain h.pid
              (fun c => { c with state := .ready, remaining_time := 5 })
            scheduler := pm.scheduler.record_switch } := by
  intro r
  induction r with
  | zero => intro pm h _ _ h1; omega
  | succ r ih =>
    intro pm h hr hrt _
    by_cases hz : r = 0
    · subst hz
      rw [Function.iterate_one]
      exact cycle_exp pm h [] hr hrt
    · rw [Function.iterate_succ_apply]
      rw [cycle_dec pm h [] hr (by omega)]
      rw [ih { pm with
          running_queue := [{ h with remaining_time := h.remaining_time - 1 }]
          total_chain := hm_update pm.total_chain h.pid
            (fun c => { c with remaining_time := h.remaining_time - 1 }) }
        { h with remaining_time := h.remaining_time - 1 } rfl
        (by dsimp only; omega) (by omega)]
      dsimp only
      rw [hm_update_update]

/-- C9: run_one_cycle invokes schedule exactly when nothing is running —
if both queues are empty it returns the state unchanged, otherwise it
continues with schedule's outcome — and then decrements the running
head's remaining_time, mirroring the new value into the directory; the
decrement reaching zero triggers exactly the time-slice-expiry path,
which requeues the head into the ready queue at its priority position
with remaining_time reset to 5 and its directory copy updated alike; so
running the cycle remaining_time times from a sole running process fires
exactly one expiry, at the last iteration, and lands the process back in
ready with a fresh quantum of 5. -/
theorem C9_run_one_cycle (pm : ProcessManager) :
    (pm.running_queue = [] → pm.ready_queue = [] → run_one_cycle pm = pm) ∧
    (pm.running_queue = [] → run_one_cycle pm
        = (match schedule pm with
            | (.error _, pm2) => pm2
            | (.ok _, pm2) => run_cycle_body pm2)) ∧
    (∀ h t, pm.running_queue = h :: t → 2 ≤ h.remaining_time →
      run_one_cycle pm = { pm with
        running_queue := { h with remaining_time := h.remaining_time - 1 } :: t
        total_chain := hm_update pm.total_chain h.pid
          (fun c => { c with remaining_time := h.remaining_time - 1 }) }) ∧
    (∀ h t, pm.running_queue = h :: t → h.remaining_time = 1 →
      run_one_cycle pm = { pm with
        running_queue := t
        ready_queue := enqueue_by_priority pm.ready_queue
          { h with state := .ready, remaining_time := 5 }
        total_chain := hm_update pm.total_chain h.pid
          (fun c => { c with state := .ready, remaining_time := 5 })
        scheduler := pm.scheduler.record_switch }) ∧
    (∀ h r, pm.running_queue = [h] → h.remaining_time = r → 1 ≤ r →
      run_one_cycle^[r] pm = { pm with
        running_queue := []
        ready_queue := enqueue_by_priority pm.ready_queue
          { h with state := .ready, remaining_time := 5 }
        total_chain := hm_update pm.total_chain h.pid
          (fun c => { c with state := .ready, remaining_time := 5 })
        scheduler := pm.scheduler.record_switch }) := by
  refine ⟨?_, ?_, ?_, ?_, ?_⟩
  · intro h1 h2
    have hs : schedule pm = (.error .readyQueueEmpty, pm) := by
      unfold schedule
      rw [h1, h2]
    unfold run_one_cycle
    rw [h1, if_pos List.isEmpty_nil, hs]
  · intro h1
    unfold run_one_cycle
    rw [h1, if_pos List.isEmpty_nil]
  · intro h t h1 h2
    exact cycle_dec pm h t h1 h2
  · intro h t h1 h2
    exact cycle_exp pm h t h1 h2
  · intro h r h1 h2 h3
    exact cycle_iterate r pm h h1 h2 h3

/-- The scenario state of C9: pid 1 running with a full quantum, pid 2
ready, one switch recorded. -/
def pmRun : ProcessManager := (schedule pmTwo).2

theorem C9_run_one_cycle_witness :
    run_one_cycle^[5] pmRun
      = { pmRun with
          running_queue := []
          ready_queue := enqueue_by_priority pmRun.ready_queue
            { (⟨1, 5, .running, 5, 0⟩ : PCB) with
                state := .ready, remaining_time := 5 }
          total_chain := hm_update pmRun.total_chain
            (⟨1, 5, .running, 5, 0⟩ : PCB).pid
            (fun c => { c with state := .ready, remaining_time := 5 })
          scheduler := pmRun.scheduler.record_switch } :=
  (C9_run_one_cycle pmRun).2.2.2.2 ⟨1, 5, .running, 5, 0⟩ 5 rfl rfl (by omega)

/-- C10: in every reachable manager state every queued PCB — ready,
waiting or running — has remaining_time at least 1; in particular the
running head run_one_cycle decrements has remaining_time at least 1, so
the u32 decrement never underflows. -/
theorem C10_no_underflow (pm : ProcessManager) (h : Reachable pm) :
    (∀ p ∈ allQ pm, 1 ≤ p.remaining_time) ∧
    ∀ hd t, pm.running_queue = hd :: t → 1 ≤ hd.remaining_time := by
  have hI := inv_reachable h
  refine ⟨hI.hrem, ?_⟩
  intro hd t hr
  exact hI.hrem hd (mem_allQ_running (by rw [hr]; exact List.mem_cons_self hd t))

theorem C10_no_underflow_witness :
    (∀ p ∈ allQ (schedule (create_process
        (create_process ProcessManager.new 5).2 3).2).2,
      1 ≤ p.remaining_time) ∧
    ∀ hd t, (schedule (create_process
        (create_process ProcessManager.new 5).2 3).2).2.running_queue
        = hd :: t → 1 ≤ hd.remaining_time :=
  C10_no_underflow _
    (Reachable.sched (create_process (create_process ProcessManager.new 5).2 3).2
      (Reachable.create (create_process ProcessManager.new 5).2 3
        (Reachable.create ProcessManager.new 5 Reachable.init)))

end OsPcb
